import Mathlib

/-!
Verification of the hS6Dv3 block codec (compress-worker.js / decompress-worker.js /
utils.js) against its specification.

The development shallowly embeds the JavaScript sources:
* bytes are `Nat` (machine 32-bit arithmetic is made explicit with masks / `% 2^32`),
* `Uint8Array` blocks are `List Nat`,
* fallible operations return `Option` / `Except`.

Two models of the container layout appear:
* the *literal* model (`compressLiteral`, `decompressLiteral`) reproduces the source
  exactly: a 12-byte header whose 4-byte checksum write at offset 9 overflows the
  buffer (a `DataView` range error in JavaScript);
* the *corrected* model (`compress`, `decompress`) uses the 13-byte layout that the
  specification (§6) states is the intended format, everything else being a faithful
  translation of the worker code.

The BWT and Huffman engines (`bwt-engine.js`, `huffman-engine.js`) and the
`isStructuredText` predicate are not part of the visible sources; they are modelled
from the specification, as documented on each definition.
-/

namespace HS6D

/-! ## Byte-level utilities -/

/-- Big-endian 4-byte serialization of a 32-bit value, as `DataView.setUint32` writes it. -/
def toBytes4 (v : Nat) : List Nat :=
  [v / 2 ^ 24 % 256, v / 2 ^ 16 % 256, v / 2 ^ 8 % 256, v % 256]

/-- Big-endian 2-byte serialization of a 16-bit value. -/
def toBytes2 (v : Nat) : List Nat :=
  [v / 256 % 256, v % 256]

/-- Big-endian 4-byte read at an offset, as `DataView.getUint32` reads it
(total version used by the corrected model, where bounds were already checked). -/
def getU32D (l : List Nat) (off : Nat) : Nat :=
  l.getD off 0 * 2 ^ 24 + l.getD (off + 1) 0 * 2 ^ 16 + l.getD (off + 2) 0 * 2 ^ 8 +
    l.getD (off + 3) 0

/-- Bounds-checked big-endian 4-byte write into a buffer, as `DataView.setUint32`:
writing past the end of the view is a range error (`none`). -/
def setU32At (buf : List Nat) (off v : Nat) : Option (List Nat) :=
  if off + 4 ≤ buf.length then
    some ((((buf.set off (v / 2 ^ 24 % 256)).set (off + 1) (v / 2 ^ 16 % 256)).set
      (off + 2) (v / 2 ^ 8 % 256)).set (off + 3) (v % 256))
  else none

/-- Bounds-checked 1-byte write, as `DataView.setUint8`. -/
def setU8At (buf : List Nat) (off v : Nat) : Option (List Nat) :=
  if off < buf.length then some (buf.set off (v % 256)) else none

/-- Bounds-checked big-endian 4-byte read, as `DataView.getUint32`. -/
def getU32At (buf : List Nat) (off : Nat) : Option Nat :=
  if off + 4 ≤ buf.length then some (getU32D buf off) else none

/-- Bounds-checked 1-byte read, as `DataView.getUint8`. -/
def getU8At (buf : List Nat) (off : Nat) : Option Nat :=
  if off < buf.length then some (buf.getD off 0) else none

/-! ## CRC-32 (src/utils.js)

`CRC32_TABLE[n]` is built by eight shift/xor rounds from `n`; `crc32` folds the
table-driven step over the data with initial value `0xFFFFFFFF` and final
complement, returning `0` for empty or missing input.  All JavaScript `Number`
bit operations act on the 32-bit pattern of the value, which the `Nat` model
reproduces exactly. -/

/-- One round of the CRC table generator: `c & 1 ? 0xEDB88320 ^ (c >>> 1) : c >>> 1`. -/
def crcRound (c : Nat) : Nat :=
  if c % 2 = 1 then 0xEDB88320 ^^^ (c >>> 1) else c >>> 1

/-- Entry `n` of the precomputed table `CRC32_TABLE` (eight generator rounds). -/
def crcTable (n : Nat) : Nat :=
  crcRound (crcRound (crcRound (crcRound (crcRound (crcRound (crcRound (crcRound n)))))))

/-- The per-byte CRC step `CRC32_TABLE[(crc ^ byte) & 0xFF] ^ (crc >>> 8)`. -/
def crcStep (crc b : Nat) : Nat :=
  crcTable ((crc ^^^ b) &&& 255) ^^^ (crc >>> 8)

/-- Function `crc32` from src/utils.js.  The 32 KB chunking of the source is a pure
iteration over all bytes in order, which this fold reproduces. -/
def crc32 (data : List Nat) : Nat :=
  if data = [] then 0
  else (data.foldl crcStep 0xFFFFFFFF) ^^^ 0xFFFFFFFF

/-! ## Classifier (compress-worker.js) -/

/-- Byte class test of the `shouldUseBWT` sampler: printable ASCII (32..126)
or tab / line feed / carriage return. -/
def isTextByte (b : Nat) : Bool :=
  (32 ≤ b && b ≤ 126) || b == 9 || b == 10 || b == 13

/-- Number of text bytes in the first `min(length, 10000)` bytes. -/
def textCount (data : List Nat) : Nat :=
  (data.take 10000).countP isTextByte

/-- The sample size `Math.min(data.length, 10000)`. -/
def sampleSize (data : List Nat) : Nat :=
  min data.length 10000

/-- Modelled from the spec: `isStructuredText` is imported by compress-worker.js
from `../utils.js`, but utils.js does not export a function of that name (only
`detectStructuredData`); the predicate itself is therefore missing from the
visible sources.  Following §4.1(a) — "consistent delimiter count across a
sample of lines, or valid-looking markup/JSON framing" — this model splits a
10000-byte sample into lines, looks for a delimiter (comma, semicolon, tab,
pipe) whose count in the first line is at least 2 and is repeated in more than
5 of the first 10 lines, and otherwise accepts brace/bracket JSON framing or
angle-bracket markup framing of the trimmed sample.  It is a pure function of
the block. -/
def splitOnByte (sep : Nat) (l : List Nat) : List (List Nat) :=
  l.foldr (fun b acc =>
    match acc with
    | [] => if b = sep then [[], []] else [[b]]
    | cur :: rest => if b = sep then [] :: cur :: rest else (b :: cur) :: rest) [[]]

/-- Count of a delimiter byte in a line. -/
def delimCount (line : List Nat) (d : Nat) : Nat :=
  line.count d

/-- Delimiter-consistency detector over the sampled lines (see `isStructuredText`). -/
def delimConsistent (lines : List (List Nat)) : Bool :=
  if lines.length < 3 then false
  else
    match lines with
    | [] => false
    | first :: _ =>
      let counts := [44, 59, 9, 124].map (delimCount first)
      let maxCount := counts.foldl max 0
      if maxCount < 2 then false
      else
        let delim := match [44, 59, 9, 124].find? (fun d => delimCount first d = maxCount) with
          | some d => d
          | none => 44
        let cols := delimCount first delim
        let consistent := ((lines.take 10).countP (fun ln => delimCount ln delim == cols))
        decide (5 < consistent)

/-- Whitespace test used when trimming the sample for framing detection. -/
def isSpaceByte (b : Nat) : Bool :=
  b == 32 || b == 9 || b == 10 || b == 13

/-- Bracket/markup framing detector over the trimmed sample (see `isStructuredText`). -/
def framedStructured (sample : List Nat) : Bool :=
  let trimmed := (sample.dropWhile isSpaceByte).reverse.dropWhile isSpaceByte
  match trimmed with
  | [] => false
  | lastB :: rest =>
    match rest.getLast? with
    | none => false
    | some firstB =>
      (firstB == 123 && lastB == 125) || (firstB == 91 && lastB == 93) ||
        (firstB == 60 && lastB == 62)

/-- Modelled from the spec (§4.1(a)); see the comment above `splitOnByte`. -/
def isStructuredText (data : List Nat) : Bool :=
  let sample := data.take 10000
  delimConsistent (splitOnByte 10 sample) || framedStructured sample

/-- Function `shouldUseBWT` from compress-worker.js.  The floating comparison
`textChars / sampleSize > 0.85` is represented exactly: for sample sizes up to
10000 the double comparison holds iff `20 * textChars > 17 * sampleSize` over
the integers (the only rationals with denominator ≤ 10000 inside the rounding
gap of the literal `0.85` are the exact multiples of `17/20`, which compare
false on both sides), and for an empty sample `NaN > 0.85` is false, matching
`20 * 0 > 17 * 0`. -/
def shouldUseBWT (data : List Nat) : Bool :=
  isStructuredText data || decide (20 * textCount data > 17 * sampleSize data)

/-- Function `isAllSame` from compress-worker.js: blocks shorter than 100 bytes are never
degenerate; otherwise every byte must equal the first. -/
def isAllSame (data : List Nat) : Bool :=
  if data.length < 100 then false
  else data.all (fun b => b == data.headD 0)

/-! ## Huffman engine

Modelled from the spec (§4.3): `huffman-engine.js` is imported by both workers
but is not among the visible sources.  The model follows the specification:
a frequency table is built over the byte values of the block; a binary code is
constructed by repeatedly merging the two lowest-frequency subtrees, ties
broken by smallest contained symbol value; a block with exactly one distinct
byte value receives a 1-bit code; symbols are bit-packed MSB-first with zero
padding of the final byte; the encoder records the side information the
decoder needs (here the frequency table itself, from which the decoder
deterministically rebuilds the identical code tree, and from whose counts the
number of encoded symbols is recovered — §4.3 requires only that the format
allow recovering both).  `encode` of the empty block is the empty stream and
`decode` of the empty stream is the empty block, as §4.3 prescribes.  The
worker calls `huffmanEncoder.decode(bytes)` with no external length, so the
model's stream is self-describing. -/

/-- Frequency table of a block: the byte values 0..255 that occur, each with
its occurrence count, in ascending symbol order. -/
def freqList (x : List Nat) : List (Nat × Nat) :=
  (List.range 256).filterMap fun s => if 0 < x.count s then some (s, x.count s) else none

/-- Huffman tree: leaves carry a symbol and its weight, nodes carry the sum
weight of their subtrees. -/
inductive HTree where
  | leaf : Nat → Nat → HTree
  | node : Nat → HTree → HTree → HTree
deriving DecidableEq

/-- Weight of a subtree. -/
def HTree.weight : HTree → Nat
  | .leaf _ w => w
  | .node w _ _ => w

/-- Smallest symbol contained in a subtree — the deterministic merge tie-break. -/
def HTree.minSym : HTree → Nat
  | .leaf s _ => s
  | .node _ l r => min l.minSym r.minSym

/-- Symbols at the leaves of a subtree, left to right. -/
def HTree.leaves : HTree → List Nat
  | .leaf s _ => [s]
  | .node _ l r => l.leaves ++ r.leaves

/-- Priority order of the merge queue: by weight, ties by smallest symbol. -/
def treeLe (a b : HTree) : Bool :=
  a.weight < b.weight || (a.weight == b.weight && a.minSym ≤ b.minSym)

/-- Ordered insertion into the merge queue. -/
def insertTree (t : HTree) : List HTree → List HTree
  | [] => [t]
  | u :: us => if treeLe t u then t :: u :: us else u :: insertTree t us

/-- Sort the initial leaf queue by `treeLe`. -/
def sortTrees (l : List HTree) : List HTree :=
  l.foldr insertTree []

/-- Greedy Huffman construction: repeatedly merge the two lowest-priority
subtrees until one remains; `none` on an empty queue (empty block).  The
fuel argument (instantiated with the queue length, which strictly bounds the
number of merges) keeps the recursion structural. -/
def buildLoop : Nat → List HTree → Option HTree
  | _, [] => none
  | _, [t] => some t
  | 0, _ :: _ :: _ => none
  | fuel + 1, t1 :: t2 :: rest =>
    buildLoop fuel (insertTree (HTree.node (t1.weight + t2.weight) t1 t2) rest)

/-- Build the Huffman tree for a frequency table. -/
def buildFromList (fl : List (Nat × Nat)) : Option HTree :=
  buildLoop fl.length (sortTrees (fl.map fun p => HTree.leaf p.1 p.2))

/-- The tree actually used for coding: a single-leaf tree is promoted to a
two-child node so the unique symbol gets a 1-bit code (§4.3 degenerate case). -/
def codingTree : HTree → HTree
  | .leaf s w => .node w (.leaf s w) (.leaf s w)
  | t => t

/-- Code of a symbol: the path to its leftmost leaf (`false` = left). -/
def pathTo (t : HTree) (s : Nat) : List Bool :=
  match t with
  | .leaf _ _ => []
  | .node _ l r => if s ∈ l.leaves then false :: pathTo l s else true :: pathTo r s

/-- Bit stream of a block under a coding tree. -/
def encBits (t : HTree) (x : List Nat) : List Bool :=
  (x.map (pathTo t)).flatten

/-- MSB-first value of (at most 8) bits. -/
def byteOfBits (bs : List Bool) : Nat :=
  bs.foldl (fun acc b => 2 * acc + cond b 1 0) 0

/-- Pack bits MSB-first into bytes, zero-padding the final byte (§4.3). -/
def packBits : List Bool → List Nat
  | [] => []
  | b0 :: b1 :: b2 :: b3 :: b4 :: b5 :: b6 :: b7 :: rest =>
    byteOfBits [b0, b1, b2, b3, b4, b5, b6, b7] :: packBits rest
  | bs => [byteOfBits (bs ++ List.replicate (8 - bs.length) false)]

/-- The 8 bits of a byte, MSB first. -/
def bitsOfByte (n : Nat) : List Bool :=
  [n.testBit 7, n.testBit 6, n.testBit 5, n.testBit 4,
   n.testBit 3, n.testBit 2, n.testBit 1, n.testBit 0]

/-- Unpack a byte sequence into its bit stream, MSB first. -/
def unpackBits (bytes : List Nat) : List Bool :=
  (bytes.map bitsOfByte).flatten

/-- Serialized frequency table: one byte of symbol and four bytes of count per
entry. -/
def serEntries (fl : List (Nat × Nat)) : List Nat :=
  (fl.map fun p => p.1 :: toBytes4 p.2).flatten

/-- Method `huffmanEncoder.encode` (modelled from the spec, see above): 2-byte entry
count, serialized frequency table, then the packed bit stream; the empty block
encodes to the empty stream. -/
def huffEncode (x : List Nat) : List Nat :=
  match buildFromList (freqList x) with
  | none => []
  | some t => toBytes2 (freqList x).length ++ serEntries (freqList x) ++
      packBits (encBits (codingTree t) x)

/-- Parse `m` serialized frequency entries, returning them with the leftover
bytes. -/
def parseEntries : Nat → List Nat → Option (List (Nat × Nat) × List Nat)
  | 0, rest => some ([], rest)
  | m + 1, s :: c3 :: c2 :: c1 :: c0 :: rest =>
    (parseEntries m rest).map fun pr =>
      ((s, c3 * 2 ^ 24 + c2 * 2 ^ 16 + c1 * 2 ^ 8 + c0) :: pr.1, pr.2)
  | _ + 1, _ => none

/-- Decode one symbol by walking the coding tree along the bit stream. -/
def decodeSym : HTree → List Bool → Option (Nat × List Bool)
  | .leaf s _, bs => some (s, bs)
  | .node _ _ _, [] => none
  | .node _ l _, false :: bs => decodeSym l bs
  | .node _ _ r, true :: bs => decodeSym r bs

/-- Decode exactly `n` symbols, ignoring trailing padding bits. -/
def decodeSyms (t : HTree) : Nat → List Bool → Option (List Nat)
  | 0, _ => some []
  | n + 1, bits =>
    (decodeSym t bits).bind fun pr => (decodeSyms t n pr.2).map (pr.1 :: ·)

/-- Total number of encoded symbols, recovered from the frequency counts. -/
def sumCounts (fl : List (Nat × Nat)) : Nat :=
  (fl.map Prod.snd).sum

/-- Method `huffmanEncoder.decode` (modelled from the spec, see above): rebuilds the
code tree from the serialized frequency table and walks the bit stream;
malformed input yields `none` (the engine's terminal error). -/
def huffDecode (y : List Nat) : Option (List Nat) :=
  match y with
  | [] => some []
  | m1 :: m0 :: rest =>
    (parseEntries (m1 * 256 + m0) rest).bind fun pr =>
      match buildFromList pr.1 with
      | none => none
      | some t => decodeSyms (codingTree t) (sumCounts pr.1) (unpackBits pr.2)
  | _ => none

/-! ## BWT engine

Modelled from the spec (§4.2): `bwt-engine.js` is imported by both workers
but is not among the visible sources.  Forward transform: sort all cyclic
rotations of the block lexicographically, ties between identical rotations
broken by original offset ascending; the output is the last column of the
sorted rotation matrix plus the rank of the offset-0 rotation
(`primaryIndex`).  Because the worker feeds the transform result directly to
`huffmanEncoder.encode` as a byte array, the model serializes `primaryIndex`
as a 4-byte big-endian prelude to the last column.  Inverse transform:
LF-mapping (occurrence counting) and a backward walk of `length` steps from
`primaryIndex`, prepending each visited byte; an out-of-range primary index
is the engine's terminal corrupt-transform error (`none`).  Blocks of length
0 or 1 pass through unchanged with primary index 0 (§4.2). -/

/-- Rotation of a block starting at offset `i`. -/
def rotAt (x : List Nat) (i : Nat) : List Nat :=
  x.drop i ++ x.take i

/-- All rotations, paired with their starting offset. -/
def rotPairs (x : List Nat) : List (List Nat × Nat) :=
  (List.range x.length).map fun i => (rotAt x i, i)

/-- Sorting order of the rotation matrix: lexicographic on the rotation,
ties broken by offset ascending (the spec's stable tie-break). -/
def rowLe (p q : List Nat × Nat) : Prop :=
  List.Lex (· < ·) p.1 q.1 ∨ (p.1 = q.1 ∧ p.2 ≤ q.2)

instance (p q : List Nat × Nat) : Decidable (rowLe p q) := by
  unfold rowLe
  exact inferInstance

/-- The sorted rotation matrix. -/
def sortedRots (x : List Nat) : List (List Nat × Nat) :=
  List.insertionSort rowLe (rotPairs x)

/-- Last column of the sorted rotation matrix. -/
def bwtL (x : List Nat) : List Nat :=
  (sortedRots x).map fun p => p.1.getLastD 0

/-- Rank of the offset-0 rotation among the sorted rotations. -/
def bwtPrimary (x : List Nat) : Nat :=
  (sortedRots x).findIdx fun p => p.2 == 0

/-- Method `bwtProcessor.process` (modelled from the spec, see above). -/
def bwtProcess (x : List Nat) : List Nat :=
  if x.length ≤ 1 then x else toBytes4 (bwtPrimary x) ++ bwtL x

/-- The LF mapping: `(number of bytes smaller than L[k]) + (occurrences of
L[k] strictly before position k)`. -/
def lfMap (L : List Nat) (k : Nat) : Nat :=
  L.countP (fun b => b < L.getD k 0) + (L.take k).count (L.getD k 0)

/-- Backward walk of the inverse transform, prepending one byte per step. -/
def bwtWalk (L : List Nat) : Nat → Nat → List Nat → List Nat
  | 0, _, acc => acc
  | t + 1, p, acc => bwtWalk L t (lfMap L p) (L.getD p 0 :: acc)

/-- Method `bwtProcessor.inverse` (modelled from the spec, see above). -/
def bwtInverse (y : List Nat) : Option (List Nat) :=
  if y.length ≤ 1 then some y
  else if y.length < 5 then none
  else
    let primary := getU32D y 0
    let L := y.drop 4
    if L.length ≤ primary then none
    else some (bwtWalk L L.length primary [])

/-! ## Pipeline (compress-worker.js / decompress-worker.js)

The corrected container layout (spec §6): 4-byte magic at offset 0, 4-byte
original size at offset 4, 1 flags byte at offset 8, 4-byte checksum at
offset 9, payload from offset 13.  The source allocates only 12 header bytes
and the checksum write at offset 9 overflows that buffer (see the literal
model below); §6 of the spec flags this as a defect and states the 13-byte
layout as the intended format, so the behavioural model uses 13 bytes and is
otherwise a line-by-line translation of the workers.

Progress reporting is modelled as the list of fractions passed to
`reportProgress`, in call order, attached to the result. -/

/-- The magic constant `0x48533644`. -/
def magicN : Nat := 0x48533644

/-- Result of one compress invocation: the emitted container and the progress
fractions reported, in order. -/
structure CompressResult where
  container : List Nat
  trace : List ℚ
deriving DecidableEq

instance {ε α : Type} [DecidableEq ε] [DecidableEq α] : DecidableEq (Except ε α) :=
  fun a b =>
    match a, b with
    | .error e1, .error e2 =>
      if h : e1 = e2 then .isTrue (by rw [h]) else .isFalse (by simp [h])
    | .ok v1, .ok v2 =>
      if h : v1 = v2 then .isTrue (by rw [h]) else .isFalse (by simp [h])
    | .error _, .ok _ => .isFalse (by simp)
    | .ok _, .error _ => .isFalse (by simp)

/-- Result of one decompress invocation: the progress fractions reported, in
order, and either an error message or the block together with the
size-mismatch warning flag (the worker's `console.warn`). -/
structure DecompResult where
  trace : List ℚ
  outcome : Except String (List Nat × Bool)
deriving DecidableEq

/-- The worker's `compressedData` before the acceptability fallback: Huffman
encoding of the (possibly BWT-transformed) block. -/
def encodedData (data : List Nat) : List Nat :=
  if shouldUseBWT data then huffEncode (bwtProcess data) else huffEncode data

/-- The worker's `isUncompressed` flag, i.e. the acceptability test
`compressedData.length / data.length > 0.95`.  The floating comparison is
represented exactly by `20 * length > 19 * length`: for any block length the
double comparison agrees with the rational one, and for the empty block
`0/0 = NaN > 0.95` is false, matching `0 > 0`. -/
def rawFallback (data : List Nat) : Bool :=
  decide (20 * (encodedData data).length > 19 * data.length)

/-- The worker's `isSpecialCase` flag: `isAllSame` is only consulted on the
non-BWT branch. -/
def specialCase (data : List Nat) : Bool :=
  !shouldUseBWT data && isAllSame data

/-- The flags byte: bit 0 transform, bit 1 degenerate shortcut, bit 2 raw. -/
def flagsOf (data : List Nat) : Nat :=
  (cond (shouldUseBWT data) 1 0) ||| (cond (specialCase data) 2 0) |||
    (cond (rawFallback data) 4 0)

/-- The emitted payload: the original block under the raw fallback, the
encoded stream otherwise. -/
def payloadOf (data : List Nat) : List Nat :=
  if rawFallback data then data else encodedData data

/-- The progress fractions reported by one compress invocation, in order. -/
def compressTrace (data : List Nat) : List ℚ :=
  (if shouldUseBWT data then [1/20, 1/5, 2/5]
   else if isAllSame data then [1/20, 1/5, 3/10] else [1/20, 1/5]) ++
    (if rawFallback data then [3/5] else []) ++ [17/20, 1]

/-- The compress pipeline (corrected 13-byte header, see above): classify,
encode, acceptability fallback, then frame with magic, original size, flags
and payload checksum. -/
def compress (data : List Nat) : CompressResult :=
  ⟨toBytes4 magicN ++ toBytes4 (data.length % 2 ^ 32) ++ [flagsOf data] ++
      toBytes4 (crc32 (payloadOf data)) ++ payloadOf data,
    compressTrace data⟩

/-- The repeated-byte reconstruction step of decompress-worker.js: if the
degenerate flag is set, the reconstructed block has length 1 and the stored
size exceeds 1, replicate the single byte. -/
def replicateStage (flags size : Nat) (r : List Nat) : List Nat :=
  if flags &&& 2 ≠ 0 ∧ r.length = 1 ∧ 1 < size then List.replicate size (r.headD 0) else r

/-- The final size check of decompress-worker.js: warn when the reconstructed
length disagrees with the stored size and truncate when it is longer (never
pad). -/
def clampStage (size : Nat) (r : List Nat) : List Nat × Bool :=
  (if size < r.length then r.take size else r, decide (r.length ≠ size))

/-- The payload reconstruction of decompress-worker.js before the replicate
and size-check steps: raw payload if the raw flag is set, otherwise Huffman
decode followed, when the transform flag is set, by the inverse BWT. -/
def reconstructStage (flags : Nat) (payload : List Nat) : Option (List Nat) :=
  if flags &&& 4 ≠ 0 then some payload
  else (huffDecode payload).bind fun h =>
    if flags &&& 1 ≠ 0 then bwtInverse h else some h

/-- The decompress pipeline (corrected 13-byte header, see above): the worker's
`size`, `flags`, `checksum` and `payload` locals are written inline as the
corresponding header reads. -/
def decompress (bytes : List Nat) : DecompResult :=
  if bytes.length < 13 then
    ⟨[1/20], .error "Archivo inválido: tamaño mínimo 12 bytes"⟩
  else if getU32D bytes 0 ≠ magicN then
    ⟨[1/20], .error "Formato de archivo inválido"⟩
  else if crc32 (bytes.drop 13) ≠ getU32D bytes 9 then
    ⟨[1/20, 1/5], .error "Checksum no coincide - archivo corrupto"⟩
  else if bytes.getD 8 0 &&& 4 ≠ 0 then
    ⟨[1/20, 1/5, 4/5, 1],
      .ok (clampStage (getU32D bytes 4)
        (replicateStage (bytes.getD 8 0) (getU32D bytes 4) (bytes.drop 13)))⟩
  else
    match huffDecode (bytes.drop 13) with
    | none => ⟨[1/20, 1/5, 2/5], .error "Error en descompresión: datos Huffman corruptos"⟩
    | some h =>
      if bytes.getD 8 0 &&& 1 ≠ 0 then
        match bwtInverse h with
        | none =>
          ⟨[1/20, 1/5, 2/5, 7/10], .error "Error en descompresión: transformada corrupta"⟩
        | some r =>
          ⟨[1/20, 1/5, 2/5, 7/10, 1],
            .ok (clampStage (getU32D bytes 4)
              (replicateStage (bytes.getD 8 0) (getU32D bytes 4) r))⟩
      else
        ⟨[1/20, 1/5, 2/5, 1],
          .ok (clampStage (getU32D bytes 4)
            (replicateStage (bytes.getD 8 0) (getU32D bytes 4) h))⟩

/-! ## Literal header model

The source as written: compress-worker.js lines 97-121 allocate
`new Uint8Array(12)` and then perform `view.setUint32(9, checksum)`, a 4-byte
write that needs bytes 9..12 of a 12-byte buffer — a `DataView` range error,
caught by the worker's `try`/`catch` and reported as a compression error.
decompress-worker.js likewise slices a 12-byte header and performs
`view.getUint32(9)`, the same out-of-bounds access. -/

/-- The header construction exactly as compress-worker.js performs it. -/
def buildHeaderLiteral (size flags checksum : Nat) : Option (List Nat) :=
  (setU32At (List.replicate 12 0) 0 magicN).bind fun b1 =>
    (setU32At b1 4 size).bind fun b2 =>
      (setU8At b2 8 flags).bind fun b3 =>
        setU32At b3 9 checksum

/-- The compress worker exactly as written: classification, encoding and the
acceptability fallback as in the corrected model, then the 12-byte header
construction, whose failing checksum write aborts every invocation. -/
def compressLiteral (data : List Nat) : Except String (List Nat) :=
  match buildHeaderLiteral (data.length % 2 ^ 32) (flagsOf data) (crc32 (payloadOf data)) with
  | none => .error "Error en compresión: Offset is outside the bounds of the DataView"
  | some header => .ok (header ++ payloadOf data)

/-- The decompress worker's header reads exactly as written: a 12-byte slice,
magic check, then size, flags and the 4-byte checksum read at offset 9, which
overflows the slice. -/
def decompressLiteral (bytes : List Nat) : Except String (List Nat) :=
  if bytes.length < 12 then .error "Archivo inválido: tamaño mínimo 12 bytes"
  else
    let header := bytes.take 12
    match getU32At header 0 with
    | none => .error "Error en descompresión: Offset is outside the bounds of the DataView"
    | some m =>
      if m ≠ magicN then .error "Formato de archivo inválido"
      else
        match getU32At header 4, getU8At header 8 with
        | some size, some flags =>
          match getU32At header 9 with
          | none => .error "Error en descompresión: Offset is outside the bounds of the DataView"
          | some checksum =>
            let payload := bytes.drop 12
            if crc32 payload ≠ checksum then .error "Checksum no coincide - archivo corrupto"
            else
              match reconstructStage flags payload with
              | none => .error "Error en descompresión"
              | some r => .ok (clampStage size (replicateStage flags size r)).1
        | _, _ => .error "Error en descompresión: Offset is outside the bounds of the DataView"

/-- A well-formed progress trace: monotonically non-decreasing fractions in
`[0, 1]`, ending at 1 (§5 of the spec). -/
def goodTrace (t : List ℚ) : Prop :=
  List.Chain' (· ≤ ·) t ∧ (∀ q ∈ t, 0 ≤ q ∧ q ≤ 1) ∧ t.getLast? = some 1

/-- Index of the predecessor rotation (wrapping one step backwards). -/
def predIdx (n i : Nat) : Nat :=
  (i + n - 1) % n

/-- The strict lexicographic order on rotations, with the trailing index
tie-break, is transitive. -/
instance : IsTrans (List Nat × Nat) rowLe where
  trans p q r hpq hqr := by
    rcases hpq with h1 | ⟨e1, i1⟩
    · rcases hqr with h2 | ⟨e2, i2⟩
      · exact Or.inl (@IsTrans.trans (List Nat) (List.Lex (· < ·)) _ p.1 q.1 r.1 h1 h2)
      · exact Or.inl (e2 ▸ h1)
    · rcases hqr with h2 | ⟨e2, i2⟩
      · exact Or.inl (e1 ▸ h2)
      · exact Or.inr ⟨e1.trans e2, le_trans i1 i2⟩

instance : IsTotal (List Nat × Nat) rowLe where
  total p q := by
    rcases @trichotomous (List Nat) (List.Lex (· < ·)) _ p.1 q.1 with h | h | h
    · exact Or.inl (Or.inl h)
    · rcases Nat.le_total p.2 q.2 with hi | hi
      · exact Or.inl (Or.inr ⟨h, hi⟩)
      · exact Or.inr (Or.inr ⟨h.symm, hi⟩)
    · exact Or.inr (Or.inl h)

instance : IsAntisymm (List Nat × Nat) rowLe where
  antisymm p q hpq hqp := by
    rcases hpq with h1 | ⟨e1, i1⟩
    · rcases hqp with h2 | ⟨e2, i2⟩
      · exact absurd h1 (@asymm (List Nat) (List.Lex (· < ·)) _ _ _ h2)
      · exact absurd (e2 ▸ h1) (@irrefl (List Nat) (List.Lex (· < ·)) _ q.1)
    · rcases hqp with h2 | ⟨e2, i2⟩
      · exact absurd (e1 ▸ h2) (@irrefl (List Nat) (List.Lex (· < ·)) _ q.1)
      · exact Prod.ext e1 (le_antisymm i1 i2)

/-- Non-strict lexicographic comparison of byte lists. -/
def listLexLe (a b : List Nat) : Prop :=
  List.Lex (· < ·) a b ∨ a = b

instance : IsAntisymm (List Nat) listLexLe where
  antisymm a b hab hba := by
    rcases hab with h1 | h1
    · rcases hba with h2 | h2
      · exact absurd h1 (@asymm (List Nat) (List.Lex (· < ·)) _ _ _ h2)
      · exact h2.symm
    · exact h1

/-! ## Basic structural lemmas -/

theorem insertTree_length (t : HTree) (l : List HTree) :
    (insertTree t l).length = l.length + 1 := by
  induction l with
  | nil => rfl
  | cons u us ih =>
    simp only [insertTree]
    split <;> simp [ih]

theorem countP_replicate (p : Nat → Bool) (n : Nat) (a : Nat) :
    (List.replicate n a).countP p = if p a then n else 0 := by
  induction n with
  | zero => simp
  | succ m ih =>
    rw [List.replicate_succ, List.countP_cons, ih]
    by_cases h : p a <;> simp [h]

theorem toBytes4_length (v : Nat) : (toBytes4 v).length = 4 := rfl

theorem toBytes4_lt (v : Nat) : ∀ b ∈ toBytes4 v, b < 256 := by
  intro b hb
  simp only [toBytes4, List.mem_cons, List.not_mem_nil, or_false] at hb
  rcases hb with h | h | h | h <;> subst h <;> exact Nat.mod_lt _ (by norm_num)

theorem getU32D_toBytes4 (v : Nat) (rest : List Nat) (h : v < 2 ^ 32) :
    getU32D (toBytes4 v ++ rest) 0 = v := by
  simp only [getU32D, toBytes4, List.cons_append, List.nil_append, List.getD_cons_zero,
    List.getD_cons_succ]
  omega

/-- The container of the corrected model, written as header fields followed by
the payload. -/
theorem compress_container (data : List Nat) :
    (compress data).container =
      toBytes4 magicN ++ toBytes4 (data.length % 2 ^ 32) ++ [flagsOf data] ++
        toBytes4 (crc32 (payloadOf data)) ++ payloadOf data := rfl

theorem compress_container_length (data : List Nat) :
    (compress data).container.length = 13 + (payloadOf data).length := by
  simp only [compress_container, toBytes4, List.length_append, List.length_cons,
    List.length_nil]
  try omega

theorem compress_container_getD_8 (data : List Nat) :
    (compress data).container.getD 8 0 = flagsOf data := by
  simp [compress_container, toBytes4, List.getD_cons_zero, List.getD_cons_succ,
    List.cons_append, List.nil_append]

theorem compress_container_magic (data : List Nat) :
    getU32D (compress data).container 0 = magicN := by
  rw [compress_container]
  simp only [List.append_assoc]
  exact getU32D_toBytes4 _ _ (by norm_num [magicN])

theorem compress_container_size (data : List Nat) :
    getU32D (compress data).container 4 = data.length % 2 ^ 32 := by
  have h : (compress data).container =
      toBytes4 magicN ++ (toBytes4 (data.length % 2 ^ 32) ++ ([flagsOf data] ++
        (toBytes4 (crc32 (payloadOf data)) ++ payloadOf data))) := by
    simp [compress_container, List.append_assoc]
  rw [h]
  show getU32D ([_, _, _, _] ++ _) 4 = _
  simp only [getU32D, List.cons_append, List.nil_append, List.getD_cons_succ]
  have h4 : getU32D (toBytes4 (data.length % 2 ^ 32) ++ ([flagsOf data] ++
      (toBytes4 (crc32 (payloadOf data)) ++ payloadOf data))) 0 = data.length % 2 ^ 32 :=
    getU32D_toBytes4 _ _ (Nat.mod_lt _ (by norm_num))
  simpa [getU32D] using h4

theorem crcRound_lt {c : Nat} (h : c < 2 ^ 32) : crcRound c < 2 ^ 32 := by
  have hs : c >>> 1 < 2 ^ 32 := by
    rw [Nat.shiftRight_eq_div_pow]
    exact lt_of_le_of_lt (Nat.div_le_self _ _) h
  unfold crcRound
  split
  · exact Nat.xor_lt_two_pow (by norm_num) hs
  · exact hs

theorem crcTable_lt {n : Nat} (h : n < 2 ^ 32) : crcTable n < 2 ^ 32 :=
  crcRound_lt (crcRound_lt (crcRound_lt (crcRound_lt (crcRound_lt (crcRound_lt
    (crcRound_lt (crcRound_lt h)))))))

theorem crcStep_lt {crc : Nat} (b : Nat) (h : crc < 2 ^ 32) : crcStep crc b < 2 ^ 32 := by
  have h1 : (crc ^^^ b) &&& 255 < 2 ^ 32 :=
    lt_of_le_of_lt (Nat.and_le_right) (by norm_num)
  have h2 : crc >>> 8 < 2 ^ 32 := by
    rw [Nat.shiftRight_eq_div_pow]
    exact lt_of_le_of_lt (Nat.div_le_self _ _) h
  exact Nat.xor_lt_two_pow (crcTable_lt h1) h2

theorem crcFold_lt : ∀ (l : List Nat) (crc : Nat), crc < 2 ^ 32 →
    l.foldl crcStep crc < 2 ^ 32 := by
  intro l
  induction l with
  | nil => intro crc h; exact h
  | cons b bs ih => intro crc h; exact ih _ (crcStep_lt b h)

theorem crc32_lt (data : List Nat) : crc32 data < 2 ^ 32 := by
  unfold crc32
  split
  · norm_num
  · exact Nat.xor_lt_two_pow (crcFold_lt _ _ (by norm_num)) (by norm_num)

theorem compress_container_checksum (data : List Nat) :
    getU32D (compress data).container 9 = crc32 (payloadOf data) := by
  have h : (compress data).container =
      (toBytes4 magicN ++ toBytes4 (data.length % 2 ^ 32) ++ [flagsOf data]) ++
        (toBytes4 (crc32 (payloadOf data)) ++ payloadOf data) := by
    simp [compress_container, List.append_assoc]
  rw [h]
  show getU32D ([_, _, _, _, _, _, _, _, _] ++ _) 9 = _
  simp only [getU32D, List.cons_append, List.nil_append, List.getD_cons_succ]
  have h9 : getU32D (toBytes4 (crc32 (payloadOf data)) ++ payloadOf data) 0 =
      crc32 (payloadOf data) := getU32D_toBytes4 _ _ (crc32_lt _)
  simpa [getU32D] using h9

theorem compress_container_drop_13 (data : List Nat) :
    (compress data).container.drop 13 = payloadOf data := by
  have h : (compress data).container =
      (toBytes4 magicN ++ toBytes4 (data.length % 2 ^ 32) ++ [flagsOf data] ++
        toBytes4 (crc32 (payloadOf data))) ++ payloadOf data := by
    simp [compress_container, List.append_assoc]
  rw [h, List.drop_append_of_le_length (by simp [toBytes4])]
  simp [toBytes4]

/-- Bit 1 (value 2) of the flags byte is set exactly by the special case. -/
theorem flagsOf_and_two (data : List Nat) :
    flagsOf data &&& 2 = cond (specialCase data) 2 0 := by
  unfold flagsOf
  cases shouldUseBWT data <;> cases specialCase data <;> cases rawFallback data <;> rfl

/-- Bit 2 (value 4) of the flags byte is set exactly by the raw fallback. -/
theorem flagsOf_and_four (data : List Nat) :
    flagsOf data &&& 4 = cond (rawFallback data) 4 0 := by
  unfold flagsOf
  cases shouldUseBWT data <;> cases specialCase data <;> cases rawFallback data <;> rfl

/-- Bit 0 (value 1) of the flags byte is set exactly by the transform decision. -/
theorem flagsOf_and_one (data : List Nat) :
    flagsOf data &&& 1 = cond (shouldUseBWT data) 1 0 := by
  unfold flagsOf
  cases shouldUseBWT data <;> cases specialCase data <;> cases rawFallback data <;> rfl

/-! ## C2 — container layout -/

theorem buildHeaderLiteral_eq_none (size flags checksum : Nat) :
    buildHeaderLiteral size flags checksum = none := by
  simp only [buildHeaderLiteral, setU32At, setU8At, List.length_replicate, List.length_set]
  norm_num [Option.bind]

/-- C2: the claim states that compress emits a 13-byte header with the payload
at offset 13 and that decompress reads the same layout.  The source instead
allocates a 12-byte header and performs 4-byte accesses at offset 9, which
overflow the buffer: every compress invocation aborts with a range error
before emitting anything, and every decompress invocation that passes the
magic check aborts the same way.  The specification itself (§6) identifies
this as a defect and states the 13-byte layout as the intent, so the claim is
right and the code is wrong. -/
theorem C2_layout_code_bug :
    (∀ data : List Nat,
      compressLiteral data =
        .error "Error en compresión: Offset is outside the bounds of the DataView") ∧
    (∀ bytes : List Nat, 12 ≤ bytes.length → getU32D (bytes.take 12) 0 = magicN →
      decompressLiteral bytes =
        .error "Error en descompresión: Offset is outside the bounds of the DataView") := by
  constructor
  · intro data
    unfold compressLiteral
    rw [buildHeaderLiteral_eq_none]
  · intro bytes hlen hmagic
    unfold decompressLiteral
    rw [if_neg (by omega)]
    have ht : (bytes.take 12).length = 12 := by
      rw [List.length_take]
      omega
    have h0 : getU32At (bytes.take 12) 0 = some (getU32D (bytes.take 12) 0) := by
      unfold getU32At
      rw [if_pos (by omega)]
    have h4 : getU32At (bytes.take 12) 4 = some (getU32D (bytes.take 12) 4) := by
      unfold getU32At
      rw [if_pos (by omega)]
    have h8 : getU8At (bytes.take 12) 8 = some ((bytes.take 12).getD 8 0) := by
      unfold getU8At
      rw [if_pos (by omega)]
    have h9 : getU32At (bytes.take 12) 9 = none := by
      unfold getU32At
      rw [if_neg (by omega)]
    simp [h0, h4, h8, h9, hmagic]

/-- C2 witness: the second conjunct applied to a concrete magic-led buffer. -/
theorem C2_layout_code_bug_witness :
    decompressLiteral ([0x48, 0x53, 0x36, 0x44] ++ List.replicate 8 0) =
      .error "Error en descompresión: Offset is outside the bounds of the DataView" :=
  C2_layout_code_bug.2 ([0x48, 0x53, 0x36, 0x44] ++ List.replicate 8 0)
    (by decide) (by decide)

/-! ## C10 — degenerate detection threshold -/

/-- C10: `isAllSame` returns false for every block shorter than 100 bytes (even
an all-identical one) and for longer blocks returns true exactly when every
byte equals the first; consequently a block shorter than 100 bytes never gets
the degenerate flag in its container. -/
theorem C10_degenerate_threshold : ∀ data : List Nat,
    (isAllSame data = true ↔ 100 ≤ data.length ∧ ∀ b ∈ data, b = data.headD 0) ∧
    (data.length < 100 → (compress data).container.getD 8 0 &&& 2 = 0) := by
  intro data
  constructor
  · unfold isAllSame
    split
    · constructor
      · intro h
        exact absurd h (by simp)
      · intro h
        omega
    · rw [List.all_eq_true]
      constructor
      · intro h
        exact ⟨by omega, fun b hb => by simpa using h b hb⟩
      · intro h b hb
        simpa using h.2 b hb
  · intro hlen
    rw [compress_container_getD_8, flagsOf_and_two]
    have hsame : isAllSame data = false := by
      unfold isAllSame
      rw [if_pos hlen]
    unfold specialCase
    rw [hsame, Bool.and_false]
    rfl

/-- C10 witness: a 1-byte block, evaluated concretely. -/
theorem C10_degenerate_threshold_witness :
    (compress [65]).container.getD 8 0 &&& 2 = 0 :=
  (C10_degenerate_threshold [65]).2 (by norm_num)

/-! ## C7 — classifier decision -/

/-- C7: `shouldUseBWT` is true exactly when the structured-text detector
accepts the block or the fraction of printable-ASCII / tab / LF / CR bytes in
the first `min(length, 10000)` bytes exceeds 0.85.  Determinism and freedom
from side effects hold because the decision is a pure function of the block. -/
theorem textCount_le (data : List Nat) : textCount data ≤ sampleSize data := by
  unfold textCount sampleSize
  have h := List.countP_le_length (l := data.take 10000) (p := isTextByte)
  rwa [List.length_take, Nat.min_comm] at h

theorem C7_classifier : ∀ data : List Nat,
    shouldUseBWT data = true ↔
      (isStructuredText data = true ∨
        (0 < sampleSize data ∧
          (85 : ℚ) / 100 < (textCount data : ℚ) / (sampleSize data : ℚ))) := by
  intro data
  have htle := textCount_le data
  unfold shouldUseBWT
  rw [Bool.or_eq_true, decide_eq_true_iff]
  constructor
  · rintro (h | h)
    · exact Or.inl h
    · have hs : 0 < sampleSize data := by omega
      refine Or.inr ⟨hs, ?_⟩
      rw [div_lt_div_iff₀ (by norm_num) (by exact_mod_cast hs)]
      have hn : 85 * sampleSize data < textCount data * 100 := by omega
      exact_mod_cast hn
  · rintro (h | ⟨hs, h⟩)
    · exact Or.inl h
    · refine Or.inr ?_
      rw [div_lt_div_iff₀ (by norm_num) (by exact_mod_cast hs)] at h
      have hn : 85 * sampleSize data < textCount data * 100 := by exact_mod_cast h
      omega

/-! ## C5 — non-expansion -/

/-- C5: the emitted container never exceeds the input length plus the 13-byte
header, because payloads longer than 95% of the input are replaced by the raw
original bytes. -/
theorem C5_non_expansion : ∀ data : List Nat,
    (compress data).container.length ≤ data.length + 13 := by
  intro data
  rw [compress_container_length]
  unfold payloadOf
  split
  · omega
  · next h =>
    have h2 : ¬(20 * (encodedData data).length > 19 * data.length) := by
      intro hc
      exact h (by unfold rawFallback; exact decide_eq_true hc)
    omega

/-! ## C3 — degenerate flag vs transform path -/

/-- C3 counterexample: 10000 bytes of `0x41` are classified as text (ratio
1.0 > 0.85), take the transform branch, and `isAllSame` is never consulted
there: the degenerate flag (bit 1, value 2) of the emitted container is
clear, contradicting the claim that it is set regardless of the transform
decision. -/
theorem C3_degenerate_flag_counterexample :
    (compress (List.replicate 10000 65)).container.getD 8 0 &&& 2 = 0 := by
  rw [compress_container_getD_8, flagsOf_and_two]
  have hbwt : shouldUseBWT (List.replicate 10000 65) = true := by
    unfold shouldUseBWT
    rw [Bool.or_eq_true]
    refine Or.inr (decide_eq_true ?_)
    have ht : textCount (List.replicate 10000 65) = 10000 := by
      unfold textCount
      rw [List.take_replicate, countP_replicate]
      norm_num
      decide
    have hs : sampleSize (List.replicate 10000 65) = 10000 := by
      unfold sampleSize
      rw [List.length_replicate]
      exact Nat.min_self 10000
    rw [ht, hs]
    norm_num
  unfold specialCase
  rw [hbwt]
  rfl

/-- C3 amended: the degenerate flag is set exactly when the transform path was
*not* chosen and the block is all-one-byte of length at least 100 (the code
consults `isAllSame` only on the non-transform branch). -/
theorem C3_degenerate_flag : ∀ data : List Nat,
    (compress data).container.getD 8 0 &&& 2 =
      cond (!shouldUseBWT data && isAllSame data) 2 0 := by
  intro data
  rw [compress_container_getD_8, flagsOf_and_two]
  rfl

/-! ## C6 — empty block -/

/-- C6 counterexample: compressing the empty block sets neither the raw flag
nor the degenerate flag (the `NaN > 0.95` acceptability comparison is false,
so the raw fallback is not taken), contradicting the claim that one of them
is set. -/
theorem C6_empty_flags_counterexample :
    (compress []).container.getD 8 0 &&& 4 = 0 ∧
      (compress []).container.getD 8 0 &&& 2 = 0 := by
  constructor <;> decide

/-- C6 amended: compressing the empty block yields a container whose stored
original size is 0 and whose flags byte is 0 (no transform, degenerate or raw
flag), and decompressing that container returns the empty block without a
size warning. -/
theorem C6_empty_block :
    getU32D (compress []).container 4 = 0 ∧
      (compress []).container.getD 8 0 = 0 ∧
      (decompress (compress []).container).outcome = .ok ([], false) := by
  refine ⟨by decide, by decide, by decide⟩

/-! ## C9 — progress reporting -/

/-- C9: within one compress invocation the reported progress fractions are
non-decreasing, lie in `[0, 1]` and end at 1; the same holds for every
decompress invocation that completes successfully. -/
theorem C9_progress :
    (∀ data : List Nat, goodTrace (compress data).trace) ∧
    (∀ (bytes : List Nat) (res : List Nat × Bool),
      (decompress bytes).outcome = .ok res → goodTrace (decompress bytes).trace) := by
  constructor
  · intro data
    show goodTrace (compressTrace data)
    unfold compressTrace
    cases hb : shouldUseBWT data <;> cases ha : isAllSame data <;>
      cases hr : rawFallback data <;>
      · simp only [hb, ha, hr, Bool.false_eq_true, if_false, if_true, List.cons_append,
          List.nil_append, reduceIte]
        refine ⟨by norm_num [List.chain'_cons], fun q hq => ?_, by rfl⟩
        fin_cases hq <;> norm_num
  · intro bytes res h
    unfold decompress at h ⊢
    by_cases h1 : bytes.length < 13
    · rw [if_pos h1] at h
      exact absurd h (by simp)
    · rw [if_neg h1] at h ⊢
      by_cases h2 : getU32D bytes 0 ≠ magicN
      · rw [if_pos h2] at h
        exact absurd h (by simp)
      · rw [if_neg h2] at h ⊢
        by_cases h3 : crc32 (bytes.drop 13) ≠ getU32D bytes 9
        · rw [if_pos h3] at h
          exact absurd h (by simp)
        · rw [if_neg h3] at h ⊢
          by_cases h4 : bytes.getD 8 0 &&& 4 ≠ 0
          · rw [if_pos h4]
            refine ⟨by norm_num [List.chain'_cons], fun q hq => ?_, by rfl⟩
            fin_cases hq <;> norm_num
          · rw [if_neg h4] at h ⊢
            cases h5 : huffDecode (bytes.drop 13) with
            | none =>
              rw [h5] at h
              simp at h
            | some hd =>
              rw [h5] at h
              dsimp only at h ⊢
              by_cases h6 : bytes.getD 8 0 &&& 1 ≠ 0
              · rw [if_pos h6] at h ⊢
                cases h7 : bwtInverse hd with
                | none =>
                  rw [h7] at h
                  simp at h
                | some r =>
                  refine ⟨by norm_num [List.chain'_cons], fun q hq => ?_, by rfl⟩
                  fin_cases hq <;> norm_num
              · rw [if_neg h6]
                refine ⟨by norm_num [List.chain'_cons], fun q hq => ?_, by rfl⟩
                fin_cases hq <;> norm_num

/-- C9 witness: the decompress conjunct applied to the container of a concrete
compress run. -/
theorem C9_progress_witness :
    goodTrace (decompress (compress [0]).container).trace :=
  C9_progress.2 (compress [0]).container ([0], false) (by decide)

/-! ## CRC-32 single-corruption sensitivity

The table-driven CRC step is injective in the state (for a fixed input byte)
and in the input byte's low 8 bits (for a fixed state).  Both facts reduce to
two finite properties of the 256-entry table, checked by `decide`: the
entries are pairwise distinct, and so are their top bytes. -/

set_option maxRecDepth 4096 in
theorem crcTable_nodup : ((List.range 256).map crcTable).Nodup := by decide

set_option maxRecDepth 4096 in
theorem crcTable_top_nodup :
    ((List.range 256).map (fun n => crcTable n >>> 24)).Nodup := by decide

theorem crcTable_inj {a b : Nat} (ha : a < 256) (hb : b < 256)
    (h : crcTable a = crcTable b) : a = b :=
  List.inj_on_of_nodup_map crcTable_nodup (List.mem_range.mpr ha)
    (List.mem_range.mpr hb) h

theorem crcTable_top_inj {a b : Nat} (ha : a < 256) (hb : b < 256)
    (h : crcTable a >>> 24 = crcTable b >>> 24) : a = b :=
  List.inj_on_of_nodup_map crcTable_top_nodup (List.mem_range.mpr ha)
    (List.mem_range.mpr hb) h

theorem shiftRight_xor_distrib (a b k : Nat) :
    (a ^^^ b) >>> k = (a >>> k) ^^^ (b >>> k) := by
  apply Nat.eq_of_testBit_eq
  intro i
  simp [Nat.testBit_shiftRight, Nat.testBit_xor]

theorem and_255_eq_mod (a : Nat) : a &&& 255 = a % 256 := by
  have h := Nat.and_pow_two_sub_one_eq_mod a 8
  norm_num at h
  exact h

theorem xor_right_cancel {a b t : Nat} (h : a ^^^ t = b ^^^ t) : a = b := by
  have h2 := congrArg (· ^^^ t) h
  simpa [Nat.xor_assoc] using h2

theorem xor_left_cancel {a b t : Nat} (h : t ^^^ a = t ^^^ b) : a = b := by
  have h2 := congrArg (t ^^^ ·) h
  simpa [← Nat.xor_assoc] using h2

theorem xor_ne_self {b m : Nat} (hm : m ≠ 0) : b ^^^ m ≠ b := by
  intro h
  apply hm
  have h2 := congrArg (b ^^^ ·) h
  simpa [← Nat.xor_assoc] using h2

/-- The CRC step is injective in the state for a fixed byte. -/
theorem crcStep_inj_state {s1 s2 : Nat} (b : Nat) (hs1 : s1 < 2 ^ 32) (hs2 : s2 < 2 ^ 32)
    (h : crcStep s1 b = crcStep s2 b) : s1 = s2 := by
  have hn1 : (s1 ^^^ b) &&& 255 < 256 := lt_of_le_of_lt Nat.and_le_right (by norm_num)
  have hn2 : (s2 ^^^ b) &&& 255 < 256 := lt_of_le_of_lt Nat.and_le_right (by norm_num)
  by_cases hn : (s1 ^^^ b) &&& 255 = (s2 ^^^ b) &&& 255
  · unfold crcStep at h
    rw [hn] at h
    have hshift : s1 >>> 8 = s2 >>> 8 := xor_left_cancel h
    have hlow : s1 % 256 = s2 % 256 := by
      have e1 : (s1 ^^^ b) &&& 255 = (s1 &&& 255) ^^^ (b &&& 255) := Nat.and_xor_distrib_right
      have e2 : (s2 ^^^ b) &&& 255 = (s2 &&& 255) ^^^ (b &&& 255) := Nat.and_xor_distrib_right
      rw [e1, e2] at hn
      have := xor_right_cancel hn
      rwa [and_255_eq_mod, and_255_eq_mod] at this
    have hdiv : s1 / 256 = s2 / 256 := by
      simp only [Nat.shiftRight_eq_div_pow] at hshift
      norm_num at hshift
      exact hshift
    omega
  · exfalso
    apply hn
    have htop := congrArg (· >>> 24) h
    unfold crcStep at htop
    simp only [shiftRight_xor_distrib] at htop
    have hz1 : s1 >>> 8 >>> 24 = 0 := by
      rw [Nat.shiftRight_eq_div_pow, Nat.shiftRight_eq_div_pow]
      apply Nat.div_eq_of_lt
      omega
    have hz2 : s2 >>> 8 >>> 24 = 0 := by
      rw [Nat.shiftRight_eq_div_pow, Nat.shiftRight_eq_div_pow]
      apply Nat.div_eq_of_lt
      omega
    rw [hz1, hz2, Nat.xor_zero, Nat.xor_zero] at htop
    exact crcTable_top_inj hn1 hn2 htop

/-- The CRC step is injective in the low byte of the input for a fixed state. -/
theorem crcStep_inj_byte {s b1 b2 : Nat} (hne : b1 &&& 255 ≠ b2 &&& 255) :
    crcStep s b1 ≠ crcStep s b2 := by
  intro h
  apply hne
  unfold crcStep at h
  have htab : crcTable ((s ^^^ b1) &&& 255) = crcTable ((s ^^^ b2) &&& 255) :=
    xor_right_cancel h
  have hn1 : (s ^^^ b1) &&& 255 < 256 := lt_of_le_of_lt Nat.and_le_right (by norm_num)
  have hn2 : (s ^^^ b2) &&& 255 < 256 := lt_of_le_of_lt Nat.and_le_right (by norm_num)
  have hidx := crcTable_inj hn1 hn2 htab
  rw [Nat.and_xor_distrib_right, Nat.and_xor_distrib_right] at hidx
  exact xor_left_cancel hidx

/-- Folding the CRC step over a common suffix preserves state inequality. -/
theorem crcFold_inj : ∀ (l : List Nat) {s1 s2 : Nat}, s1 < 2 ^ 32 → s2 < 2 ^ 32 →
    s1 ≠ s2 → l.foldl crcStep s1 ≠ l.foldl crcStep s2 := by
  intro l
  induction l with
  | nil => intro s1 s2 _ _ hne; exact hne
  | cons b bs ih =>
    intro s1 s2 hs1 hs2 hne
    simp only [List.foldl_cons]
    exact ih (crcStep_lt b hs1) (crcStep_lt b hs2)
      (fun hstep => hne (crcStep_inj_state b hs1 hs2 hstep))

/-- Flipping any single bit of any byte of a block changes its CRC-32. -/
theorem crc32_flip_ne (p : List Nat) (j k : Nat) (hj : j < p.length) (hk : k < 8) :
    crc32 (p.set j (p.getD j 0 ^^^ 2 ^ k)) ≠ crc32 p := by
  have hp : p ≠ [] := by
    intro h
    rw [h] at hj
    simp at hj
  have hset : p.set j (p.getD j 0 ^^^ 2 ^ k) =
      p.take j ++ (p.getD j 0 ^^^ 2 ^ k) :: p.drop (j + 1) := by
    rw [List.set_eq_take_append_cons_drop, if_pos hj]
  have hsplit : p = p.take j ++ p.getD j 0 :: p.drop (j + 1) := by
    conv_lhs => rw [← List.take_append_drop j p, List.drop_eq_getElem_cons hj]
    rw [List.getD_eq_getElem?_getD, List.getElem?_eq_getElem hj]
    rfl
  have hset_ne : p.set j (p.getD j 0 ^^^ 2 ^ k) ≠ [] := by
    intro h
    rw [hset] at h
    simp at h
  unfold crc32
  rw [if_neg hset_ne, if_neg hp]
  intro h
  have hfold := xor_right_cancel h
  rw [hset] at hfold
  conv_rhs at hfold => rw [hsplit]
  rw [List.foldl_append, List.foldl_append] at hfold
  simp only [List.foldl_cons] at hfold
  have hslt : (p.take j).foldl crcStep 0xFFFFFFFF < 2 ^ 32 := crcFold_lt _ _ (by norm_num)
  have hbne : (p.getD j 0 ^^^ 2 ^ k) &&& 255 ≠ p.getD j 0 &&& 255 := by
    rw [Nat.and_xor_distrib_right]
    have h2k : 2 ^ k &&& 255 = 2 ^ k := by
      rw [and_255_eq_mod]
      exact Nat.mod_eq_of_lt (by
        calc 2 ^ k < 2 ^ 8 := Nat.pow_lt_pow_right (by norm_num) hk
        _ = 256 := by norm_num)
    rw [h2k]
    exact xor_ne_self (Nat.two_pow_pos k).ne'
  have hstep_ne : crcStep ((p.take j).foldl crcStep 0xFFFFFFFF) (p.getD j 0 ^^^ 2 ^ k) ≠
      crcStep ((p.take j).foldl crcStep 0xFFFFFFFF) (p.getD j 0) :=
    crcStep_inj_byte hbne
  exact crcFold_inj _ (crcStep_lt _ hslt) (crcStep_lt _ hslt) hstep_ne hfold

/-! ## Huffman engine round-trip -/

theorem mem_insertTree {u v : HTree} : ∀ {l : List HTree},
    u ∈ insertTree v l ↔ u = v ∨ u ∈ l := by
  intro l
  induction l with
  | nil => simp [insertTree]
  | cons w ws ih =>
    simp only [insertTree]
    split
    · simp
    · simp only [List.mem_cons, ih]
      tauto

theorem mem_sortTrees {u : HTree} : ∀ {l : List HTree}, u ∈ sortTrees l ↔ u ∈ l := by
  intro l
  induction l with
  | nil => simp [sortTrees]
  | cons w ws ih =>
    simp only [sortTrees, List.foldr_cons] at ih ⊢
    rw [mem_insertTree, ih, List.mem_cons]

theorem sortTrees_length : ∀ (l : List HTree), (sortTrees l).length = l.length := by
  intro l
  induction l with
  | nil => rfl
  | cons w ws ih =>
    simp only [sortTrees, List.foldr_cons] at ih ⊢
    rw [insertTree_length, ih, List.length_cons]

theorem buildLoop_some : ∀ (fuel : Nat) (ts : List HTree), ts ≠ [] →
    ts.length ≤ fuel + 1 → ∃ t, buildLoop fuel ts = some t := by
  intro fuel
  induction fuel with
  | zero =>
    intro ts hne hlen
    match ts, hne with
    | [t], _ => exact ⟨t, rfl⟩
    | t1 :: t2 :: rest, _ => simp at hlen
  | succ f ih =>
    intro ts hne hlen
    match ts, hne with
    | [t], _ => exact ⟨t, rfl⟩
    | t1 :: t2 :: rest, _ =>
      have h1 : (insertTree (HTree.node (t1.weight + t2.weight) t1 t2) rest).length =
          rest.length + 1 := insertTree_length _ _
      have h2 : insertTree (HTree.node (t1.weight + t2.weight) t1 t2) rest ≠ [] := by
        intro h
        rw [h] at h1
        simp at h1
      have h3 : (insertTree (HTree.node (t1.weight + t2.weight) t1 t2) rest).length ≤
          f + 1 := by
        rw [h1]
        simp only [List.length_cons] at hlen
        omega
      exact ih _ h2 h3

theorem buildLoop_leaves : ∀ (fuel : Nat) (ts : List HTree) (t : HTree),
    buildLoop fuel ts = some t → ∀ s, (∃ u ∈ ts, s ∈ u.leaves) → s ∈ t.leaves := by
  intro fuel
  induction fuel with
  | zero =>
    intro ts t ht s hs
    match ts, ht with
    | [u], ht =>
      obtain ⟨u', hu', hsu⟩ := hs
      rw [List.mem_singleton] at hu'
      rw [show buildLoop 0 [u] = some u from rfl, Option.some_inj] at ht
      rw [← ht, ← hu']
      exact hsu
  | succ f ih =>
    intro ts t ht s hs
    match ts, ht with
    | [u], ht =>
      obtain ⟨u', hu', hsu⟩ := hs
      rw [List.mem_singleton] at hu'
      rw [show buildLoop (f + 1) [u] = some u from rfl, Option.some_inj] at ht
      rw [← ht, ← hu']
      exact hsu
    | t1 :: t2 :: rest, ht =>
      obtain ⟨u', hu', hsu⟩ := hs
      apply ih _ _ ht
      simp only [List.mem_cons] at hu'
      rcases hu' with h1 | h2 | hmem
      · exact ⟨HTree.node (t1.weight + t2.weight) t1 t2, mem_insertTree.mpr (Or.inl rfl),
          by
            simp only [HTree.leaves, List.mem_append]
            exact Or.inl (h1 ▸ hsu)⟩
      · exact ⟨HTree.node (t1.weight + t2.weight) t1 t2, mem_insertTree.mpr (Or.inl rfl),
          by
            simp only [HTree.leaves, List.mem_append]
            exact Or.inr (h2 ▸ hsu)⟩
      · exact ⟨u', mem_insertTree.mpr (Or.inr hmem), hsu⟩

theorem mem_freqList {x : List Nat} {s : Nat} (hs : s < 256) (hc : 0 < x.count s) :
    (s, x.count s) ∈ freqList x := by
  unfold freqList
  rw [List.mem_filterMap]
  exact ⟨s, List.mem_range.mpr hs, by rw [if_pos hc]⟩

theorem buildFromList_leaves {fl : List (Nat × Nat)} {t : HTree} {s : Nat}
    (ht : buildFromList fl = some t) (hs : ∃ p ∈ fl, p.1 = s) : s ∈ t.leaves := by
  unfold buildFromList at ht
  apply buildLoop_leaves _ _ _ ht
  obtain ⟨p, hp, rfl⟩ := hs
  refine ⟨HTree.leaf p.1 p.2, ?_, by simp [HTree.leaves]⟩
  rw [mem_sortTrees, List.mem_map]
  exact ⟨p, hp, rfl⟩

theorem codingTree_leaves {t : HTree} {s : Nat} (h : s ∈ t.leaves) :
    s ∈ (codingTree t).leaves := by
  cases t with
  | leaf s' w =>
    simp only [HTree.leaves, List.mem_singleton] at h
    simp [codingTree, HTree.leaves, h]
  | node w l r => exact h

theorem decodeSym_path : ∀ (t : HTree) (s : Nat) (rest : List Bool), s ∈ t.leaves →
    decodeSym t (pathTo t s ++ rest) = some (s, rest) := by
  intro t
  induction t with
  | leaf s' w =>
    intro s rest hs
    simp only [HTree.leaves, List.mem_singleton] at hs
    simp [pathTo, decodeSym, hs]
  | node w l r ihl ihr =>
    intro s rest hs
    unfold pathTo
    by_cases hmem : s ∈ l.leaves
    · rw [if_pos hmem]
      simp only [List.cons_append]
      exact ihl s rest hmem
    · rw [if_neg hmem]
      simp only [List.cons_append]
      apply ihr s rest
      simp only [HTree.leaves, List.mem_append] at hs
      exact hs.resolve_left hmem

theorem decodeSyms_enc (t : HTree) : ∀ (x : List Nat) (pad : List Bool),
    (∀ s ∈ x, s ∈ t.leaves) →
    decodeSyms t x.length (encBits t x ++ pad) = some x := by
  intro x
  induction x with
  | nil => intro pad _; rfl
  | cons s xs ih =>
    intro pad hx
    have henc : encBits t (s :: xs) ++ pad = pathTo t s ++ (encBits t xs ++ pad) := by
      simp [encBits, List.append_assoc]
    rw [List.length_cons]
    show (decodeSym t (encBits t (s :: xs) ++ pad)).bind _ = _
    rw [henc, decodeSym_path t s _ (hx s (List.mem_cons_self s xs))]
    simp only [Option.some_bind]
    rw [ih pad (fun u hu => hx u (List.mem_cons_of_mem s hu))]
    rfl

theorem bitsOfByte_byteOfBits : ∀ (b0 b1 b2 b3 b4 b5 b6 b7 : Bool),
    bitsOfByte (byteOfBits [b0, b1, b2, b3, b4, b5, b6, b7]) =
      [b0, b1, b2, b3, b4, b5, b6, b7] := by
  decide

theorem unpackBits_append (a b : List Nat) :
    unpackBits (a ++ b) = unpackBits a ++ unpackBits b := by
  simp [unpackBits]

theorem bitsOfByte_byteOfBits8 (bs : List Bool) (h : bs.length = 8) :
    bitsOfByte (byteOfBits bs) = bs := by
  rcases bs with _ | ⟨b0, _ | ⟨b1, _ | ⟨b2, _ | ⟨b3, _ | ⟨b4, _ | ⟨b5, _ |
    ⟨b6, _ | ⟨b7, rest⟩⟩⟩⟩⟩⟩⟩⟩ <;>
    simp only [List.length_cons, List.length_nil] at h
  all_goals try omega
  have hrest : rest = [] := by
    rw [← List.length_eq_zero]
    omega
  subst hrest
  exact bitsOfByte_byteOfBits b0 b1 b2 b3 b4 b5 b6 b7

theorem unpackBits_single (n : Nat) : unpackBits [n] = bitsOfByte n := by
  simp [unpackBits]

theorem unpack_pack : ∀ (n : Nat) (bits : List Bool), bits.length ≤ n →
    ∃ k, k < 8 ∧ unpackBits (packBits bits) = bits ++ List.replicate k false := by
  intro n
  induction n with
  | zero =>
    intro bits hlen
    have : bits = [] := List.length_eq_zero.mp (by omega)
    subst this
    exact ⟨0, by norm_num, rfl⟩
  | succ m ih =>
    intro bits hlen
    rcases bits with _ | ⟨b0, r0⟩
    · exact ⟨0, by norm_num, rfl⟩
    rcases r0 with _ | ⟨b1, r1⟩
    · refine ⟨7, by norm_num, ?_⟩
      rw [show packBits [b0] = [byteOfBits ([b0] ++ List.replicate 7 false)] from rfl,
        unpackBits_single]
      exact bitsOfByte_byteOfBits8 _ (by simp)
    rcases r1 with _ | ⟨b2, r2⟩
    · refine ⟨6, by norm_num, ?_⟩
      rw [show packBits [b0, b1] = [byteOfBits ([b0, b1] ++ List.replicate 6 false)] from rfl,
        unpackBits_single]
      exact bitsOfByte_byteOfBits8 _ (by simp)
    rcases r2 with _ | ⟨b3, r3⟩
    · refine ⟨5, by norm_num, ?_⟩
      rw [show packBits [b0, b1, b2] =
          [byteOfBits ([b0, b1, b2] ++ List.replicate 5 false)] from rfl, unpackBits_single]
      exact bitsOfByte_byteOfBits8 _ (by simp)
    rcases r3 with _ | ⟨b4, r4⟩
    · refine ⟨4, by norm_num, ?_⟩
      rw [show packBits [b0, b1, b2, b3] =
          [byteOfBits ([b0, b1, b2, b3] ++ List.replicate 4 false)] from rfl,
        unpackBits_single]
      exact bitsOfByte_byteOfBits8 _ (by simp)
    rcases r4 with _ | ⟨b5, r5⟩
    · refine ⟨3, by norm_num, ?_⟩
      rw [show packBits [b0, b1, b2, b3, b4] =
          [byteOfBits ([b0, b1, b2, b3, b4] ++ List.replicate 3 false)] from rfl,
        unpackBits_single]
      exact bitsOfByte_byteOfBits8 _ (by simp)
    rcases r5 with _ | ⟨b6, r6⟩
    · refine ⟨2, by norm_num, ?_⟩
      rw [show packBits [b0, b1, b2, b3, b4, b5] =
          [byteOfBits ([b0, b1, b2, b3, b4, b5] ++ List.replicate 2 false)] from rfl,
        unpackBits_single]
      exact bitsOfByte_byteOfBits8 _ (by simp)
    rcases r6 with _ | ⟨b7, r7⟩
    · refine ⟨1, by norm_num, ?_⟩
      rw [show packBits [b0, b1, b2, b3, b4, b5, b6] =
          [byteOfBits ([b0, b1, b2, b3, b4, b5, b6] ++ List.replicate 1 false)] from rfl,
        unpackBits_single]
      exact bitsOfByte_byteOfBits8 _ (by simp)
    have hstep : packBits (b0 :: b1 :: b2 :: b3 :: b4 :: b5 :: b6 :: b7 :: r7) =
        byteOfBits [b0, b1, b2, b3, b4, b5, b6, b7] :: packBits r7 := rfl
    obtain ⟨k, hk, hrec⟩ := ih r7 (by
      simp only [List.length_cons] at hlen
      omega)
    refine ⟨k, hk, ?_⟩
    rw [hstep]
    have hsplit : unpackBits (byteOfBits [b0, b1, b2, b3, b4, b5, b6, b7] :: packBits r7) =
        bitsOfByte (byteOfBits [b0, b1, b2, b3, b4, b5, b6, b7]) ++
          unpackBits (packBits r7) := by
      simp [unpackBits]
    rw [hsplit, bitsOfByte_byteOfBits, hrec]
    simp

theorem sumCounts_filterMap (x : List Nat) : ∀ (l : List Nat),
    sumCounts (l.filterMap fun s => if 0 < x.count s then some (s, x.count s) else none) =
      (l.map fun s => x.count s).sum := by
  intro l
  induction l with
  | nil => rfl
  | cons s l' ih =>
    rw [List.filterMap_cons, List.map_cons, List.sum_cons]
    by_cases h : 0 < x.count s
    · rw [if_pos h]
      show sumCounts ((s, x.count s) :: List.filterMap _ l') = _
      unfold sumCounts at ih ⊢
      rw [List.map_cons, List.sum_cons, ih]
    · rw [if_neg h]
      show sumCounts (List.filterMap _ l') = _
      rw [ih]
      have hc : x.count s = 0 := by omega
      rw [hc]
      omega

theorem countP_lt_succ (n : Nat) : ∀ (x : List Nat),
    x.countP (fun b => b < n + 1) = x.countP (fun b => b < n) + x.count n := by
  intro x
  induction x with
  | nil => rfl
  | cons b xs ih =>
    rw [List.countP_cons, List.countP_cons, List.count_cons, ih]
    rcases Nat.lt_trichotomy b n with h | h | h
    · have h1 : decide (b < n + 1) = true := decide_eq_true (by omega)
      have h2 : decide (b < n) = true := decide_eq_true h
      have h3 : (b == n) = false := by
        simp only [beq_eq_false_iff_ne, ne_eq]
        omega
      rw [h1, h2, h3]
      norm_num
      omega
    · have h1 : decide (b < n + 1) = true := decide_eq_true (by omega)
      have h2 : decide (b < n) = false := decide_eq_false (by omega)
      have h3 : (b == n) = true := by
        simp only [beq_iff_eq]
        omega
      rw [h1, h2, h3]
      norm_num
      omega
    · have h1 : decide (b < n + 1) = false := decide_eq_false (by omega)
      have h2 : decide (b < n) = false := decide_eq_false (by omega)
      have h3 : (b == n) = false := by
        simp only [beq_eq_false_iff_ne, ne_eq]
        omega
      rw [h1, h2, h3]
      norm_num

theorem sum_map_count_range (x : List Nat) : ∀ (n : Nat),
    ((List.range n).map fun s => x.count s).sum = x.countP (fun b => b < n) := by
  intro n
  induction n with
  | zero =>
    rw [List.range_zero, List.map_nil, List.sum_nil]
    symm
    rw [List.countP_eq_zero]
    intro a _
    simp
  | succ m ih =>
    rw [List.range_succ, List.map_append, List.sum_append, ih, countP_lt_succ]
    simp

theorem sumCounts_freqList (x : List Nat) (hb : ∀ b ∈ x, b < 256) :
    sumCounts (freqList x) = x.length := by
  unfold freqList
  rw [sumCounts_filterMap, sum_map_count_range]
  rw [List.countP_eq_length.mpr]
  intro a ha
  exact decide_eq_true (hb a ha)

theorem freqList_count_lt (x : List Nat) (hlen : x.length < 2 ^ 32) :
    ∀ p ∈ freqList x, p.2 < 2 ^ 32 := by
  intro p hp
  unfold freqList at hp
  rw [List.mem_filterMap] at hp
  obtain ⟨s, _, hif⟩ := hp
  split at hif
  · rw [Option.some_inj] at hif
    rw [← hif]
    exact lt_of_le_of_lt (List.count_le_length _ _) hlen
  · simp at hif

theorem freqList_length_le (x : List Nat) : (freqList x).length ≤ 256 := by
  unfold freqList
  exact le_trans (List.length_filterMap_le _ _) (by simp)

theorem parseEntries_ser : ∀ (fl : List (Nat × Nat)) (tail : List Nat),
    (∀ p ∈ fl, p.2 < 2 ^ 32) →
    parseEntries fl.length (serEntries fl ++ tail) = some (fl, tail) := by
  intro fl
  induction fl with
  | nil => intro tail _; rfl
  | cons p fl' ih =>
    intro tail hc
    obtain ⟨p1, p2⟩ := p
    have hser : serEntries ((p1, p2) :: fl') ++ tail =
        p1 :: (p2 / 2 ^ 24 % 256) :: (p2 / 2 ^ 16 % 256) :: (p2 / 2 ^ 8 % 256) ::
          (p2 % 256) :: (serEntries fl' ++ tail) := by
      simp [serEntries, toBytes4]
    rw [List.length_cons, hser]
    show (parseEntries fl'.length (serEntries fl' ++ tail)).map _ = _
    rw [ih tail fun q hq => hc q (List.mem_cons_of_mem (p1, p2) hq)]
    have hp2 : p2 < 2 ^ 32 := hc (p1, p2) (List.mem_cons_self (p1, p2) fl')
    simp
    omega

theorem huffDecode_cons (m1 m0 : Nat) (rest : List Nat) :
    huffDecode (m1 :: m0 :: rest) = (parseEntries (m1 * 256 + m0) rest).bind fun pr =>
      match buildFromList pr.1 with
      | none => none
      | some t => decodeSyms (codingTree t) (sumCounts pr.1) (unpackBits pr.2) := rfl

/-- Huffman round-trip (spec §4.3): decoding an encoded byte block recovers it
exactly, for every block of bytes of bounded length. -/
theorem huff_roundtrip (x : List Nat) (hb : ∀ b ∈ x, b < 256) (hlen : x.length < 2 ^ 32) :
    huffDecode (huffEncode x) = some x := by
  rcases hx : x with _ | ⟨b, xs⟩
  · rfl
  rw [← hx]
  have hxne : x ≠ [] := by rw [hx]; simp
  have hbmem : b ∈ x := by rw [hx]; exact List.mem_cons_self b xs
  have hfl_ne : freqList x ≠ [] :=
    List.ne_nil_of_mem (mem_freqList (hb b hbmem) (List.count_pos_iff.mpr hbmem))
  have hts_ne : sortTrees ((freqList x).map fun p => HTree.leaf p.1 p.2) ≠ [] := by
    intro h
    have := congrArg List.length h
    rw [sortTrees_length, List.length_map, List.length_nil] at this
    exact hfl_ne (List.length_eq_zero.mp this)
  obtain ⟨t, ht⟩ := buildLoop_some (freqList x).length _ hts_ne
    (by
      rw [sortTrees_length, List.length_map]
      omega)
  have hbuild : buildFromList (freqList x) = some t := ht
  have henc : huffEncode x = ((freqList x).length / 256 % 256) ::
      ((freqList x).length % 256) ::
      (serEntries (freqList x) ++ packBits (encBits (codingTree t) x)) := by
    unfold huffEncode
    rw [hbuild]
    simp [toBytes2]
  rw [henc, huffDecode_cons]
  have hm : (freqList x).length / 256 % 256 * 256 + (freqList x).length % 256 =
      (freqList x).length := by
    have := freqList_length_le x
    omega
  rw [hm, parseEntries_ser (freqList x) _ (freqList_count_lt x hlen)]
  rw [Option.some_bind, hbuild, sumCounts_freqList x hb]
  obtain ⟨k, _, hunp⟩ := unpack_pack (encBits (codingTree t) x).length _ le_rfl
  rw [hunp]
  exact decodeSyms_enc (codingTree t) x (List.replicate k false) fun s hs =>
    codingTree_leaves (buildFromList_leaves hbuild
      ⟨(s, x.count s), mem_freqList (hb s hs) (List.count_pos_iff.mpr hs), rfl⟩)

/-! ## BWT engine round-trip

The inverse transform is proved to reconstruct every block.  The proof follows
the classical argument: the rows of the sorted rotation matrix whose last
character is `c`, taken in row order, carry content-wise the same rotations as
the block of rows whose first character is `c` — both are non-decreasing
lexicographic enumerations of the same multiset of rotations — which makes the
counting-based LF mapping step from any row to a row holding the predecessor
rotation (content-wise, which is what the walk reads). -/

theorem sortedRots_perm (x : List Nat) : List.Perm (sortedRots x) (rotPairs x) :=
  List.perm_insertionSort rowLe (rotPairs x)

theorem sortedRots_sorted (x : List Nat) : (sortedRots x).Pairwise rowLe :=
  List.sorted_insertionSort rowLe (rotPairs x)

theorem sortedRots_length (x : List Nat) : (sortedRots x).length = x.length := by
  rw [(sortedRots_perm x).length_eq]
  simp [rotPairs]

theorem mem_sortedRots {x : List Nat} {p : List Nat × Nat} (hp : p ∈ sortedRots x) :
    p.1 = rotAt x p.2 ∧ p.2 < x.length := by
  have hmem := (sortedRots_perm x).mem_iff.mp hp
  simp only [rotPairs, List.mem_map, List.mem_range] at hmem
  obtain ⟨i, hi, rfl⟩ := hmem
  exact ⟨rfl, hi⟩

theorem rotAt_length (x : List Nat) (i : Nat) : (rotAt x i).length = x.length := by
  simp [rotAt]
  omega

theorem rotAt_zero (x : List Nat) : rotAt x 0 = x := by
  simp [rotAt]

/-- Last character of a rotation: the byte preceding the rotation start. -/
theorem rotAt_getLastD (x : List Nat) (i : Nat) (hi : i < x.length) :
    (rotAt x i).getLastD 0 = x.getD ((i + x.length - 1) % x.length) 0 := by
  rcases Nat.eq_zero_or_pos i with rfl | hipos
  · rw [rotAt_zero]
    have hmod : (0 + x.length - 1) % x.length = x.length - 1 := by
      rw [Nat.zero_add]
      exact Nat.mod_eq_of_lt (by omega)
    rw [hmod]
    rw [List.getLastD_eq_getLast?, List.getLast?_eq_getElem?]
    rw [List.getD_eq_getElem?_getD]
  · have htake : x.take i ≠ [] := by
      apply List.length_pos.mp
      rw [List.length_take]
      omega
    have hmod : (i + x.length - 1) % x.length = i - 1 := by
      have h1 : i + x.length - 1 = x.length + (i - 1) := by omega
      rw [h1, Nat.add_mod_left]
      exact Nat.mod_eq_of_lt (by omega)
    rw [hmod]
    unfold rotAt
    rw [List.getLastD_eq_getLast?, List.getLast?_append_of_ne_nil _ htake]
    rw [List.getLast?_eq_getElem?, List.length_take]
    have hlt : min i x.length = i := by omega
    rw [hlt, List.getElem?_take, if_pos (by omega), List.getD_eq_getElem?_getD]

/-- First character of a rotation: the byte at the rotation start. -/
theorem rotAt_headD (x : List Nat) (i : Nat) (hi : i < x.length) :
    (rotAt x i).headD 0 = x.getD i 0 := by
  unfold rotAt
  have hdrop : x.drop i ≠ [] := by
    intro h
    have := congrArg List.length h
    rw [List.length_drop] at this
    simp at this
    omega
  rw [List.headD_eq_head?_getD, List.head?_append_of_ne_nil _ hdrop]
  rw [List.head?_eq_getElem?, List.getElem?_drop, Nat.add_zero, List.getD_eq_getElem?_getD]

/-- The predecessor rotation is the last character consed onto the rotation
without its last character. -/
theorem rotAt_pred (x : List Nat) (i : Nat) (hi : i < x.length) :
    rotAt x ((i + x.length - 1) % x.length) =
      x.getD ((i + x.length - 1) % x.length) 0 :: (rotAt x i).dropLast := by
  rcases Nat.eq_zero_or_pos i with rfl | hipos
  · have hmod : (0 + x.length - 1) % x.length = x.length - 1 := by
      rw [Nat.zero_add]
      exact Nat.mod_eq_of_lt (by omega)
    rw [hmod, rotAt_zero]
    unfold rotAt
    have hdrop : x.drop (x.length - 1) = [x.getD (x.length - 1) 0] := by
      rw [List.drop_eq_getElem_cons (show x.length - 1 < x.length by omega)]
      rw [List.getD_eq_getElem x 0 (by omega)]
      have hnil : x.drop (x.length - 1 + 1) = [] := by
        apply List.drop_eq_nil_of_le
        omega
      rw [hnil]
    rw [hdrop, List.dropLast_eq_take]
    simp
  · have hmod : (i + x.length - 1) % x.length = i - 1 := by
      have h1 : i + x.length - 1 = x.length + (i - 1) := by omega
      rw [h1, Nat.add_mod_left]
      exact Nat.mod_eq_of_lt (by omega)
    rw [hmod]
    unfold rotAt
    have hdropi : x.drop (i - 1) = x.getD (i - 1) 0 :: x.drop i := by
      rw [List.drop_eq_getElem_cons (by omega : i - 1 < x.length),
        List.getD_eq_getElem x 0 (by omega), show i - 1 + 1 = i from by omega]
    have htakei : x.take i ≠ [] := by
      apply List.length_pos.mp
      rw [List.length_take]
      omega
    rw [hdropi, List.dropLast_append_of_ne_nil _ htakei]
    have htake' : (x.take i).dropLast = x.take (i - 1) := by
      rw [List.dropLast_eq_take, List.take_take, List.length_take]
      congr 1
      omega
    rw [htake']
    simp

theorem sorted_key_partition {α : Type} (key : α → Nat) (c : Nat) :
    ∀ (l : List α), l.Pairwise (fun a b => key a ≤ key b) →
    l = l.filter (fun a => decide (key a < c)) ++ l.filter (fun a => decide (key a = c)) ++
      l.filter (fun a => decide (c < key a)) := by
  intro l
  induction l with
  | nil => intro _; rfl
  | cons a t ih =>
    intro hp
    rw [List.pairwise_cons] at hp
    have ht := ih hp.2
    rcases Nat.lt_trichotomy (key a) c with hc | hc | hc
    · rw [List.filter_cons_of_pos (p := fun b => decide (key b < c)) (decide_eq_true hc),
        List.filter_cons_of_neg (p := fun b => decide (key b = c))
          (by simp only [decide_eq_true_eq]; omega),
        List.filter_cons_of_neg (p := fun b => decide (c < key b))
          (by simp only [decide_eq_true_eq]; omega)]
      simp only [List.cons_append]
      rw [← ht]
    · have h1 : t.filter (fun b => decide (key b < c)) = [] := by
        rw [List.filter_eq_nil_iff]
        intro b hb
        have := hp.1 b hb
        simp only [decide_eq_true_eq]
        omega
      rw [List.filter_cons_of_neg (p := fun b => decide (key b < c))
          (by simp only [decide_eq_true_eq]; omega),
        List.filter_cons_of_pos (p := fun b => decide (key b = c)) (decide_eq_true hc),
        List.filter_cons_of_neg (p := fun b => decide (c < key b))
          (by simp only [decide_eq_true_eq]; omega), h1]
      rw [h1] at ht
      simp only [List.nil_append, List.cons_append] at ht ⊢
      rw [← ht]
    · have h1 : t.filter (fun b => decide (key b < c)) = [] := by
        rw [List.filter_eq_nil_iff]
        intro b hb
        have := hp.1 b hb
        simp only [decide_eq_true_eq]
        omega
      have h2 : t.filter (fun b => decide (key b = c)) = [] := by
        rw [List.filter_eq_nil_iff]
        intro b hb
        have := hp.1 b hb
        simp only [decide_eq_true_eq]
        omega
      rw [List.filter_cons_of_neg (p := fun b => decide (key b < c))
          (by simp only [decide_eq_true_eq]; omega),
        List.filter_cons_of_neg (p := fun b => decide (key b = c))
          (by simp only [decide_eq_true_eq]; omega),
        List.filter_cons_of_pos (p := fun b => decide (c < key b)) (decide_eq_true hc), h1, h2]
      rw [h1, h2] at ht
      simp only [List.nil_append, List.cons_append] at ht ⊢
      rw [← ht]

theorem filter_getElem_countP {α : Type} (p : α → Bool) :
    ∀ (l : List α) (k : Nat) (hk : k < l.length), p l[k] = true →
    ∃ hpos : (l.take k).countP p < (l.filter p).length,
      (l.filter p)[(l.take k).countP p] = l[k] := by
  intro l
  induction l with
  | nil =>
    intro k hk
    simp at hk
  | cons a t ih =>
    intro k hk hp
    cases k with
    | zero =>
      have hpa : p a = true := hp
      rw [List.take_zero, List.countP_nil, List.filter_cons_of_pos hpa]
      exact ⟨by simp, by simp⟩
    | succ k' =>
      have hk' : k' < t.length := by simpa using hk
      have hp' : p t[k'] = true := by simpa using hp
      obtain ⟨hpos, hval⟩ := ih k' hk' hp'
      rw [List.take_succ_cons, List.countP_cons]
      by_cases hpa : p a = true
      · rw [List.filter_cons_of_pos hpa, if_pos hpa]
        refine ⟨by simp only [List.length_cons]; omega, ?_⟩
        simp only [List.getElem_cons_succ]
        exact hval
      · rw [List.filter_cons_of_neg hpa, if_neg hpa, Nat.add_zero]
        refine ⟨hpos, ?_⟩
        simp only [List.getElem_cons_succ]
        exact hval

theorem getElem_append_mid {α : Type} (A B C : List α) (j : Nat) (hj : j < B.length)
    (hb : A.length + j < (A ++ B ++ C).length) :
    (A ++ B ++ C)[A.length + j] = B[j] := by
  have h1 : (A ++ B ++ C)[A.length + j]? = some B[j] := by
    rw [List.getElem?_append, if_pos (by simp only [List.length_append]; omega)]
    rw [List.getElem?_append, if_neg (by omega)]
    rw [show A.length + j - A.length = j from by omega]
    exact List.getElem?_eq_getElem hj
  rw [List.getElem_eq_iff]
  exact h1

theorem map_filter_comm {α β : Type} (f : α → β) (q : β → Bool) :
    ∀ (l : List α), (l.filter (fun a => q (f a))).map f = (l.map f).filter q := by
  intro l
  induction l with
  | nil => rfl
  | cons a t ih =>
    simp only [List.map_cons, List.filter_cons]
    by_cases h : q (f a) <;> simp [h, ih]

theorem lex_dropLast : ∀ {a b : List Nat}, List.Lex (· < ·) a b → a.length = b.length →
    List.Lex (· < ·) a.dropLast b.dropLast ∨ a.dropLast = b.dropLast := by
  intro a b h
  induction h with
  | nil =>
    intro hlen
    simp at hlen
  | @rel a1 l1 a2 l2 hab =>
    intro hlen
    rcases l1 with _ | ⟨c1, m1⟩
    · have hl2 : l2 = [] := by
        simp only [List.length_cons, List.length_nil] at hlen
        rw [← List.length_eq_zero]
        omega
      subst hl2
      exact Or.inr rfl
    · have hl2 : l2 ≠ [] := by
        intro hh
        rw [hh] at hlen
        simp at hlen
      rw [List.dropLast_cons_of_ne_nil (by simp), List.dropLast_cons_of_ne_nil hl2]
      exact Or.inl (List.Lex.rel hab)
  | @cons a' l1 l2 hlex ih =>
    intro hlen
    have hlen' : l1.length = l2.length := by simpa using hlen
    rcases hl1 : l1 with _ | ⟨c1, m1⟩
    · rcases hl2 : l2 with _ | ⟨c2, m2⟩
      · rw [hl1] at hlex
        rw [hl2] at hlex
        cases hlex
      · rw [hl1, hl2] at hlen'
        simp at hlen'
    · have hl2ne : l2 ≠ [] := by
        intro hh
        rw [hl1, hh] at hlen'
        simp at hlen'
      rw [← hl1]
      have hl1ne : l1 ≠ [] := by rw [hl1]; simp
      rw [List.dropLast_cons_of_ne_nil hl1ne, List.dropLast_cons_of_ne_nil hl2ne]
      rcases ih hlen' with h1 | h1
      · exact Or.inl (List.Lex.cons h1)
      · rw [h1]
        exact Or.inr rfl

theorem map_predIdx_perm : ∀ (n : Nat),
    List.Perm ((List.range n).map (predIdx n)) (List.range n) := by
  intro n
  cases n with
  | zero => simp
  | succ m =>
    have h1 : (List.range (m + 1)).map (predIdx (m + 1)) = m :: List.range m := by
      rw [List.range_succ_eq_map, List.map_cons, List.map_map]
      congr 1
      · show (0 + (m + 1) - 1) % (m + 1) = m
        rw [Nat.zero_add]
        exact Nat.mod_eq_of_lt (by omega)
      · rw [List.map_congr_left (g := id), List.map_id]
        intro i hi
        rw [List.mem_range] at hi
        show (i + 1 + (m + 1) - 1) % (m + 1) = i
        have he : i + 1 + (m + 1) - 1 = (m + 1) + i := by omega
        rw [he, Nat.add_mod_left]
        exact Nat.mod_eq_of_lt (by omega)
    rw [h1, List.range_succ]
    exact (List.perm_append_singleton m (List.range m)).symm

theorem map_getD_range (x : List Nat) :
    (List.range x.length).map (fun i => x.getD i 0) = x := by
  apply List.ext_getElem
  · simp
  · intro i h1 h2
    simp only [List.getElem_map, List.getElem_range]
    rw [List.getD_eq_getElem x 0 h2]

theorem bwtL_map_form (x : List Nat) :
    bwtL x = (sortedRots x).map (fun p => x.getD (predIdx x.length p.2) 0) := by
  unfold bwtL
  apply List.map_congr_left
  intro p hp
  obtain ⟨h1, h2⟩ := mem_sortedRots hp
  rw [h1, rotAt_getLastD x p.2 h2]
  rfl

theorem snd_sortedRots_perm (x : List Nat) :
    List.Perm ((sortedRots x).map Prod.snd) (List.range x.length) := by
  have h2 : (rotPairs x).map Prod.snd = List.range x.length := by
    unfold rotPairs
    rw [List.map_map]
    rw [List.map_congr_left (g := id)]
    · exact List.map_id _
    · intro i _
      rfl
  have h := (sortedRots_perm x).map Prod.snd
  rw [h2] at h
  exact h

theorem bwtL_perm (x : List Nat) : List.Perm (bwtL x) x := by
  rw [bwtL_map_form]
  have h1 : (sortedRots x).map (fun p => x.getD (predIdx x.length p.2) 0) =
      ((sortedRots x).map Prod.snd).map (fun i => x.getD (predIdx x.length i) 0) := by
    rw [List.map_map]
    rfl
  rw [h1]
  refine List.Perm.trans ((snd_sortedRots_perm x).map _) ?_
  have h2 : (List.range x.length).map (fun i => x.getD (predIdx x.length i) 0) =
      ((List.range x.length).map (predIdx x.length)).map (fun i => x.getD i 0) := by
    rw [List.map_map]
    rfl
  rw [h2]
  refine List.Perm.trans ((map_predIdx_perm x.length).map _) ?_
  rw [map_getD_range]

theorem heads_map_form (x : List Nat) :
    (sortedRots x).map (fun p => p.1.headD 0) =
      (sortedRots x).map (fun p => x.getD p.2 0) := by
  apply List.map_congr_left
  intro p hp
  obtain ⟨h1, h2⟩ := mem_sortedRots hp
  rw [h1, rotAt_headD x p.2 h2]

theorem heads_perm (x : List Nat) :
    List.Perm ((sortedRots x).map (fun p => p.1.headD 0)) x := by
  rw [heads_map_form]
  have h1 : (sortedRots x).map (fun p => x.getD p.2 0) =
      ((sortedRots x).map Prod.snd).map (fun i => x.getD i 0) := by
    rw [List.map_map]
    rfl
  rw [h1]
  refine List.Perm.trans ((snd_sortedRots_perm x).map _) ?_
  rw [map_getD_range]

theorem lex_headD_le {a b : List Nat} (h : List.Lex (· < ·) a b) :
    a.headD 0 ≤ b.headD 0 := by
  cases h with
  | nil => exact Nat.zero_le _
  | cons _ => exact le_refl _
  | rel hr => exact le_of_lt hr

theorem rowLe_headD_le {p q : List Nat × Nat} (h : rowLe p q) :
    p.1.headD 0 ≤ q.1.headD 0 := by
  rcases h with h | ⟨h, _⟩
  · exact lex_headD_le h
  · rw [h]

theorem rotAt_pred_congr (x : List Nat) {i1 i2 : Nat} (h1 : i1 < x.length)
    (h2 : i2 < x.length) (h : rotAt x i1 = rotAt x i2) :
    rotAt x (predIdx x.length i1) = rotAt x (predIdx x.length i2) := by
  unfold predIdx
  rw [rotAt_pred x i1 h1, rotAt_pred x i2 h2, h]
  have e1 := rotAt_getLastD x i1 h1
  have e2 := rotAt_getLastD x i2 h2
  rw [← e1, ← e2, h]

/-- The rows with last character `c`, read in row order, carry the same
rotation contents as the rows with first character `c`: both are
lexicographically non-decreasing enumerations of the multiset of rotations
starting with `c`. -/
theorem blocks_eq (x : List Nat) (c : Nat) :
    ((sortedRots x).filter (fun p => decide (x.getD (predIdx x.length p.2) 0 = c))).map
        (fun p => rotAt x (predIdx x.length p.2)) =
      ((sortedRots x).filter (fun p => decide (p.1.headD 0 = c))).map Prod.fst := by
  apply List.eq_of_perm_of_sorted (r := listLexLe)
  · -- permutation: both sides enumerate the rotations at the index set of `c`
    have hq : ∀ (f : (List Nat × Nat) → Nat),
        ((sortedRots x).filter (fun p => decide (x.getD (f p) 0 = c))).map
          (fun p => rotAt x (f p)) =
        (((sortedRots x).map f).filter (fun i => decide (x.getD i 0 = c))).map
          (rotAt x) := by
      intro f
      rw [← map_filter_comm f (fun i => decide (x.getD i 0 = c)), List.map_map]
      rfl
    rw [hq (fun p => predIdx x.length p.2)]
    have hr : ((sortedRots x).filter (fun p => decide (p.1.headD 0 = c))).map Prod.fst =
        (((sortedRots x).map Prod.snd).filter
          (fun i => decide (x.getD i 0 = c))).map (rotAt x) := by
      have hcong : (sortedRots x).filter (fun p => decide (p.1.headD 0 = c)) =
          (sortedRots x).filter (fun p => decide (x.getD p.2 0 = c)) := by
        apply List.filter_congr
        intro p hp
        obtain ⟨h1, h2⟩ := mem_sortedRots hp
        rw [h1, rotAt_headD x p.2 h2]
      rw [hcong]
      have hfst : ((sortedRots x).filter (fun p => decide (x.getD p.2 0 = c))).map Prod.fst =
          ((sortedRots x).filter (fun p => decide (x.getD p.2 0 = c))).map
            (fun p => rotAt x p.2) := by
        apply List.map_congr_left
        intro p hp
        rw [List.mem_filter] at hp
        exact (mem_sortedRots hp.1).1
      rw [hfst, ← map_filter_comm Prod.snd (fun i => decide (x.getD i 0 = c)),
        List.map_map]
      rfl
    rw [hr]
    have hmap : ((sortedRots x).map (fun p => predIdx x.length p.2)) =
        ((sortedRots x).map Prod.snd).map (predIdx x.length) := by
      rw [List.map_map]
      rfl
    rw [hmap]
    apply List.Perm.map
    apply List.Perm.filter
    refine List.Perm.trans ((snd_sortedRots_perm x).map _) ?_
    refine List.Perm.trans (map_predIdx_perm x.length) (snd_sortedRots_perm x).symm
  · -- left side is sorted
    show List.Sorted listLexLe _
    rw [List.Sorted, List.pairwise_map]
    have hs := (sortedRots_sorted x).filter
      (fun p => decide (x.getD (predIdx x.length p.2) 0 = c))
    apply hs.imp_of_mem
    intro p q hp hq hpq
    rw [List.mem_filter] at hp hq
    obtain ⟨hpS, hpc⟩ := hp
    obtain ⟨hqS, hqc⟩ := hq
    obtain ⟨hp1, hp2⟩ := mem_sortedRots hpS
    obtain ⟨hq1, hq2⟩ := mem_sortedRots hqS
    rw [decide_eq_true_eq] at hpc hqc
    have hrp : rotAt x (predIdx x.length p.2) =
        x.getD (predIdx x.length p.2) 0 :: p.1.dropLast := by
      unfold predIdx
      rw [rotAt_pred x p.2 hp2, hp1]
    have hrq : rotAt x (predIdx x.length q.2) =
        x.getD (predIdx x.length q.2) 0 :: q.1.dropLast := by
      unfold predIdx
      rw [rotAt_pred x q.2 hq2, hq1]
    rw [hrp, hrq, hpc, hqc]
    rcases hpq with hlex | ⟨heq, _⟩
    · have hlen : p.1.length = q.1.length := by
        rw [hp1, hq1, rotAt_length, rotAt_length]
      rcases lex_dropLast hlex hlen with h1 | h1
      · exact Or.inl (List.Lex.cons h1)
      · rw [h1]
        exact Or.inr rfl
    · rw [heq]
      exact Or.inr rfl
  · -- right side is sorted
    show List.Sorted listLexLe _
    rw [List.Sorted, List.pairwise_map]
    have hs := (sortedRots_sorted x).filter (fun p => decide (p.1.headD 0 = c))
    apply hs.imp
    intro p q hpq
    rcases hpq with hlex | ⟨heq, _⟩
    · exact Or.inl hlex
    · exact Or.inr heq

theorem beq_eq_decide (a c : Nat) : (a == c) = decide (a = c) := by
  by_cases h : a = c
  · subst h
    simp
  · simp [h]

/-- The LF mapping sends row `k` to a row whose rotation content is the
predecessor rotation of row `k`'s rotation. -/
theorem key_lf (x : List Nat) (k : Nat) (hk : k < (sortedRots x).length) :
    ∃ hlf : lfMap (bwtL x) k < (sortedRots x).length,
      ((sortedRots x)[lfMap (bwtL x) k]).1 =
        rotAt x (predIdx x.length ((sortedRots x)[k]).2) := by
  have hSk_mem : (sortedRots x)[k] ∈ sortedRots x := List.getElem_mem hk
  obtain ⟨hSk1, hSk2⟩ := mem_sortedRots hSk_mem
  have hLlen : (bwtL x).length = (sortedRots x).length := by
    unfold bwtL
    rw [List.length_map]
  have hkL : k < (bwtL x).length := by
    rw [hLlen]
    exact hk
  have hLk : (bwtL x).getD k 0 =
      x.getD (predIdx x.length ((sortedRots x)[k]).2) 0 := by
    rw [List.getD_eq_getElem _ 0 hkL]
    have hkM : k < ((sortedRots x).map (fun p => x.getD (predIdx x.length p.2) 0)).length := by
      rw [List.length_map]
      exact hk
    have heq : (bwtL x)[k] =
        ((sortedRots x).map (fun p => x.getD (predIdx x.length p.2) 0))[k] := by
      congr 1
      exact bwtL_map_form x
    rw [heq]
    simp only [List.getElem_map]
  have hlfval : lfMap (bwtL x) k =
      (bwtL x).countP
        (fun b => decide (b < x.getD (predIdx x.length ((sortedRots x)[k]).2) 0)) +
      ((bwtL x).take k).count (x.getD (predIdx x.length ((sortedRots x)[k]).2) 0) := by
    unfold lfMap
    rw [hLk]
  have hcount1 : (bwtL x).countP
      (fun b => decide (b < x.getD (predIdx x.length ((sortedRots x)[k]).2) 0)) =
      ((sortedRots x).filter (fun p => decide (p.1.headD 0 <
        x.getD (predIdx x.length ((sortedRots x)[k]).2) 0))).length := by
    rw [(bwtL_perm x).countP_eq, ← (heads_perm x).countP_eq, List.countP_map,
      List.countP_eq_length_filter]
    simp only [Function.comp_def]
  have htakemap : (bwtL x).take k = ((sortedRots x).take k).map
      (fun p => x.getD (predIdx x.length p.2) 0) := by
    rw [bwtL_map_form, List.map_take]
  have hcount2 : ((bwtL x).take k).count
      (x.getD (predIdx x.length ((sortedRots x)[k]).2) 0) =
      ((sortedRots x).take k).countP (fun p => decide (x.getD (predIdx x.length p.2) 0 =
        x.getD (predIdx x.length ((sortedRots x)[k]).2) 0)) := by
    rw [htakemap, List.count_eq_countP, List.countP_map]
    apply List.countP_congr
    intro p _
    simp only [Function.comp_apply]
    rw [beq_eq_decide]
  have hkey : (sortedRots x).Pairwise (fun p q => p.1.headD 0 ≤ q.1.headD 0) :=
    (sortedRots_sorted x).imp rowLe_headD_le
  have hpart := sorted_key_partition (fun p => p.1.headD 0)
    (x.getD (predIdx x.length ((sortedRots x)[k]).2) 0) (sortedRots x) hkey
  have hchar : (fun p => decide (x.getD (predIdx x.length p.2) 0 =
      x.getD (predIdx x.length ((sortedRots x)[k]).2) 0)) ((sortedRots x)[k]) =
      true := decide_eq_true rfl
  obtain ⟨hpos, hval⟩ := filter_getElem_countP
    (fun p => decide (x.getD (predIdx x.length p.2) 0 =
      x.getD (predIdx x.length ((sortedRots x)[k]).2) 0))
    (sortedRots x) k hk hchar
  have hlen_eq := congrArg List.length
    (blocks_eq x (x.getD (predIdx x.length ((sortedRots x)[k]).2) 0))
  rw [List.length_map, List.length_map] at hlen_eq
  have hjlt : ((sortedRots x).take k).countP (fun p => decide (x.getD (predIdx x.length p.2) 0 =
      x.getD (predIdx x.length ((sortedRots x)[k]).2) 0)) <
      ((sortedRots x).filter (fun p => decide (p.1.headD 0 =
        x.getD (predIdx x.length ((sortedRots x)[k]).2) 0))).length := by
    rw [← hlen_eq]
    exact hpos
  have hslen : ((sortedRots x).filter (fun p => decide (p.1.headD 0 <
        x.getD (predIdx x.length ((sortedRots x)[k]).2) 0))).length +
      ((sortedRots x).filter (fun p => decide (p.1.headD 0 =
        x.getD (predIdx x.length ((sortedRots x)[k]).2) 0))).length ≤
      (sortedRots x).length := by
    conv_rhs => rw [hpart]
    simp only [List.length_append]
    omega
  have hlfbound : lfMap (bwtL x) k < (sortedRots x).length := by
    rw [hlfval, hcount1, hcount2]
    omega
  refine ⟨hlfbound, ?_⟩
  have hmid := getElem_append_mid
    ((sortedRots x).filter (fun p => decide (p.1.headD 0 <
      x.getD (predIdx x.length ((sortedRots x)[k]).2) 0)))
    ((sortedRots x).filter (fun p => decide (p.1.headD 0 =
      x.getD (predIdx x.length ((sortedRots x)[k]).2) 0)))
    ((sortedRots x).filter (fun p => decide (
      x.getD (predIdx x.length ((sortedRots x)[k]).2) 0 < p.1.headD 0)))
    (((sortedRots x).take k).countP (fun p => decide (x.getD (predIdx x.length p.2) 0 =
      x.getD (predIdx x.length ((sortedRots x)[k]).2) 0)))
    hjlt
    (by simp only [List.length_append]; omega)
  have hSlf : (sortedRots x)[lfMap (bwtL x) k] =
      ((sortedRots x).filter (fun p => decide (p.1.headD 0 =
        x.getD (predIdx x.length ((sortedRots x)[k]).2) 0)))[
        ((sortedRots x).take k).countP (fun p => decide (x.getD (predIdx x.length p.2) 0 =
          x.getD (predIdx x.length ((sortedRots x)[k]).2) 0))] := by
    rw [List.getElem_eq_iff]
    conv_lhs => rw [hpart]
    rw [show lfMap (bwtL x) k =
        ((sortedRots x).filter (fun p => decide (p.1.headD 0 <
          x.getD (predIdx x.length ((sortedRots x)[k]).2) 0))).length +
        (((sortedRots x).take k).countP (fun p => decide (x.getD (predIdx x.length p.2) 0 =
          x.getD (predIdx x.length ((sortedRots x)[k]).2) 0))) from by
      rw [hlfval, hcount1, hcount2]]
    rw [← hmid]
    exact List.getElem?_eq_getElem _
  rw [hSlf]
  have hmapeq := blocks_eq x (x.getD (predIdx x.length ((sortedRots x)[k]).2) 0)
  have hposM : ((sortedRots x).take k).countP (fun p => decide (x.getD (predIdx x.length p.2) 0 =
      x.getD (predIdx x.length ((sortedRots x)[k]).2) 0)) <
      (((sortedRots x).filter (fun p => decide (x.getD (predIdx x.length p.2) 0 =
        x.getD (predIdx x.length ((sortedRots x)[k]).2) 0))).map
          (fun p => rotAt x (predIdx x.length p.2))).length := by
    rw [List.length_map]
    exact hpos
  have hjltM : ((sortedRots x).take k).countP (fun p => decide (x.getD (predIdx x.length p.2) 0 =
      x.getD (predIdx x.length ((sortedRots x)[k]).2) 0)) <
      (((sortedRots x).filter (fun p => decide (p.1.headD 0 =
        x.getD (predIdx x.length ((sortedRots x)[k]).2) 0))).map Prod.fst).length := by
    rw [List.length_map]
    exact hjlt
  have hjmap1 : (((sortedRots x).filter (fun p => decide (x.getD (predIdx x.length p.2) 0 =
      x.getD (predIdx x.length ((sortedRots x)[k]).2) 0))).map
        (fun p => rotAt x (predIdx x.length p.2)))[
        ((sortedRots x).take k).countP (fun p => decide (x.getD (predIdx x.length p.2) 0 =
          x.getD (predIdx x.length ((sortedRots x)[k]).2) 0))] =
      rotAt x (predIdx x.length ((sortedRots x)[k]).2) := by
    simp only [List.getElem_map]
    rw [hval]
  have hjmap2 : (((sortedRots x).filter (fun p => decide (p.1.headD 0 =
      x.getD (predIdx x.length ((sortedRots x)[k]).2) 0))).map Prod.fst)[
        ((sortedRots x).take k).countP (fun p => decide (x.getD (predIdx x.length p.2) 0 =
          x.getD (predIdx x.length ((sortedRots x)[k]).2) 0))] =
      (((sortedRots x).filter (fun p => decide (p.1.headD 0 =
        x.getD (predIdx x.length ((sortedRots x)[k]).2) 0)))[
        ((sortedRots x).take k).countP (fun p => decide (x.getD (predIdx x.length p.2) 0 =
          x.getD (predIdx x.length ((sortedRots x)[k]).2) 0))]).1 := by
    simp only [List.getElem_map]
  rw [← hjmap2, ← hjmap1]
  congr 1
  exact hmapeq.symm

theorem bwtL_getD (x : List Nat) (k : Nat) (hk : k < (sortedRots x).length) :
    (bwtL x).getD k 0 = x.getD (predIdx x.length (((sortedRots x)[k]).2)) 0 := by
  have hkL : k < (bwtL x).length := by
    unfold bwtL
    rw [List.length_map]
    exact hk
  rw [List.getD_eq_getElem _ 0 hkL]
  have hkM : k < ((sortedRots x).map (fun p => x.getD (predIdx x.length p.2) 0)).length := by
    rw [List.length_map]
    exact hk
  have h : (bwtL x)[k] =
      ((sortedRots x).map (fun p => x.getD (predIdx x.length p.2) 0))[k] := by
    congr 1
    exact bwtL_map_form x
  rw [h]
  simp only [List.getElem_map]

theorem drop_eq_dropLast_drop (l : List Nat) (m : Nat) (hm : m < l.length) :
    l.drop m = l.dropLast.drop m ++ [l.getLastD 0] := by
  have hne : l ≠ [] := by
    intro h
    subst h
    simp at hm
  have h1 : l.getLastD 0 = l.getLast hne := by
    rw [List.getLastD_eq_getLast?, List.getLast?_eq_getLast l hne]
    rfl
  conv_lhs => rw [← List.dropLast_append_getLast hne]
  rw [List.drop_append_eq_append_drop]
  rw [show m - l.dropLast.length = 0 from by
    rw [List.length_dropLast]
    omega]
  rw [List.drop_zero, h1]

/-- The backward-walk invariant: starting at sorted row `k` with `t` steps
of fuel, the walk produces the last `t` characters of row `k`'s rotation. -/
theorem bwt_walk_inv (x : List Nat) :
    ∀ t, t ≤ x.length → ∀ k, ∀ hk : k < (sortedRots x).length, ∀ acc : List Nat,
    bwtWalk (bwtL x) t k acc =
      (((sortedRots x)[k]).1).drop (x.length - t) ++ acc := by
  intro t
  induction t with
  | zero =>
    intro _ k hk acc
    obtain ⟨h1, _⟩ := mem_sortedRots (List.getElem_mem hk)
    rw [Nat.sub_zero, List.drop_eq_nil_of_le (by rw [h1, rotAt_length]),
      List.nil_append]
    rfl
  | succ t ih =>
    intro ht k hk acc
    have hstep : bwtWalk (bwtL x) (t + 1) k acc =
        bwtWalk (bwtL x) t (lfMap (bwtL x) k) ((bwtL x).getD k 0 :: acc) := rfl
    rw [hstep]
    obtain ⟨hlf, hcontent⟩ := key_lf x k hk
    rw [ih (by omega) (lfMap (bwtL x) k) hlf ((bwtL x).getD k 0 :: acc)]
    rw [hcontent]
    obtain ⟨h1, h2⟩ := mem_sortedRots (List.getElem_mem hk)
    rw [bwtL_getD x k hk, h1]
    rw [show predIdx x.length (((sortedRots x)[k]).2) =
      ((((sortedRots x)[k]).2) + x.length - 1) % x.length from rfl]
    rw [rotAt_pred x (((sortedRots x)[k]).2) h2]
    rw [show x.length - t = (x.length - (t + 1)) + 1 from by omega]
    rw [List.drop_succ_cons]
    have hlen : x.length - (t + 1) < (rotAt x (((sortedRots x)[k]).2)).length := by
      rw [rotAt_length]
      omega
    rw [drop_eq_dropLast_drop _ _ hlen]
    rw [rotAt_getLastD x _ h2]
    simp only [List.append_assoc, List.singleton_append]

/-- Round-trip of the BWT stage: the inverse transform recovers every block
from its forward transform. -/
theorem bwt_roundtrip (x : List Nat) (hlen : x.length < 2 ^ 32) :
    bwtInverse (bwtProcess x) = some x := by
  by_cases hsmall : x.length ≤ 1
  · unfold bwtProcess bwtInverse
    rw [if_pos hsmall, if_pos hsmall]
  · have hy : bwtProcess x = toBytes4 (bwtPrimary x) ++ bwtL x := by
      unfold bwtProcess
      rw [if_neg hsmall]
    have hblen : (bwtL x).length = x.length := by
      unfold bwtL
      rw [List.length_map, sortedRots_length]
    have hylen : (toBytes4 (bwtPrimary x) ++ bwtL x).length = 4 + x.length := by
      rw [List.length_append, toBytes4_length, hblen]
    have hprim : bwtPrimary x < (sortedRots x).length := by
      apply List.findIdx_lt_length_of_exists
      have hmem : (rotAt x 0, 0) ∈ rotPairs x := by
        unfold rotPairs
        refine List.mem_map.mpr ⟨0, ?_, rfl⟩
        rw [List.mem_range]
        omega
      exact ⟨(rotAt x 0, 0), (sortedRots_perm x).mem_iff.mpr hmem, by simp⟩
    have hprimn : bwtPrimary x < x.length := by
      rw [← sortedRots_length x]
      exact hprim
    have hdrop : (toBytes4 (bwtPrimary x) ++ bwtL x).drop 4 = bwtL x := by
      rw [show (4 : Nat) = (toBytes4 (bwtPrimary x)).length from (toBytes4_length _).symm,
        List.drop_left]
    have hg32 : getU32D (toBytes4 (bwtPrimary x) ++ bwtL x) 0 = bwtPrimary x :=
      getU32D_toBytes4 _ _ (by omega)
    rw [hy]
    unfold bwtInverse
    rw [if_neg (by rw [hylen]; omega), if_neg (by rw [hylen]; omega)]
    show (if ((toBytes4 (bwtPrimary x) ++ bwtL x).drop 4).length ≤
        getU32D (toBytes4 (bwtPrimary x) ++ bwtL x) 0 then none
      else some (bwtWalk ((toBytes4 (bwtPrimary x) ++ bwtL x).drop 4)
        ((toBytes4 (bwtPrimary x) ++ bwtL x).drop 4).length
        (getU32D (toBytes4 (bwtPrimary x) ++ bwtL x) 0) [])) = some x
    rw [hdrop, hg32]
    rw [if_neg (by rw [hblen]; omega)]
    congr 1
    rw [hblen]
    rw [bwt_walk_inv x x.length (Nat.le_refl _) (bwtPrimary x) hprim []]
    rw [Nat.sub_self, List.drop_zero, List.append_nil]
    have hoff : (((sortedRots x)[bwtPrimary x]).2) = 0 := by
      have h := List.findIdx_getElem (p := fun q : List Nat × Nat => q.2 == 0)
        (w := hprim)
      simpa using h
    obtain ⟨h1, _⟩ := mem_sortedRots (List.getElem_mem hprim)
    rw [h1, hoff, rotAt_zero]

/-! ## C4 — integrity detection -/

/-- A successful decompression implies the container passed the length, magic
and checksum validations. -/
theorem decompress_ok_checks (bytes : List Nat) (res : List Nat × Bool)
    (h : (decompress bytes).outcome = .ok res) :
    ¬bytes.length < 13 ∧ getU32D bytes 0 = magicN ∧
      crc32 (bytes.drop 13) = getU32D bytes 9 := by
  unfold decompress at h
  by_cases h1 : bytes.length < 13
  · rw [if_pos h1] at h
    simp at h
  · rw [if_neg h1] at h
    by_cases h2 : getU32D bytes 0 ≠ magicN
    · rw [if_pos h2] at h
      simp at h
    · rw [if_neg h2] at h
      by_cases h3 : crc32 (bytes.drop 13) ≠ getU32D bytes 9
      · rw [if_pos h3] at h
        simp at h
      · exact ⟨h1, not_ne_iff.mp h2, not_ne_iff.mp h3⟩

/-- C4: flipping any single bit of the payload (a byte at offset ≥ 13) of a
container that decompresses successfully makes decompression fail with the
checksum-mismatch error; the full result equality shows that no progress is
reported past the integrity check, i.e. no decompression stage runs after the
mismatch is detected, and no block is ever returned. -/
theorem C4_integrity : ∀ (bytes : List Nat) (i k : Nat) (res : List Nat × Bool),
    13 ≤ i → i < bytes.length → k < 8 →
    (decompress bytes).outcome = .ok res →
    decompress (bytes.set i (bytes.getD i 0 ^^^ 2 ^ k)) =
      ⟨[1/20, 1/5], .error "Checksum no coincide - archivo corrupto"⟩ := by
  intro bytes i k res hi13 hilen hk hok
  obtain ⟨h1, h2, h3⟩ := decompress_ok_checks bytes res hok
  have hlen : (bytes.set i (bytes.getD i 0 ^^^ 2 ^ k)).length = bytes.length :=
    List.length_set ..
  have hgd : ∀ m, m < 13 →
      (bytes.set i (bytes.getD i 0 ^^^ 2 ^ k)).getD m 0 = bytes.getD m 0 := by
    intro m hm
    rw [List.getD_eq_getElem?_getD, List.getElem?_set_ne (by omega),
      ← List.getD_eq_getElem?_getD]
  have hu0 : getU32D (bytes.set i (bytes.getD i 0 ^^^ 2 ^ k)) 0 = getU32D bytes 0 := by
    unfold getU32D
    rw [hgd 0 (by norm_num), hgd 1 (by norm_num), hgd 2 (by norm_num), hgd 3 (by norm_num)]
  have hu9 : getU32D (bytes.set i (bytes.getD i 0 ^^^ 2 ^ k)) 9 = getU32D bytes 9 := by
    unfold getU32D
    rw [hgd 9 (by norm_num), hgd 10 (by norm_num), hgd 11 (by norm_num),
      hgd 12 (by norm_num)]
  have hdrop : (bytes.set i (bytes.getD i 0 ^^^ 2 ^ k)).drop 13 =
      (bytes.drop 13).set (i - 13) ((bytes.drop 13).getD (i - 13) 0 ^^^ 2 ^ k) := by
    rw [List.drop_set, if_neg (by omega)]
    congr 2
    rw [List.getD_eq_getElem?_getD, List.getD_eq_getElem?_getD, List.getElem?_drop]
    congr 2
    omega
  have hcrcne : crc32 ((bytes.set i (bytes.getD i 0 ^^^ 2 ^ k)).drop 13) ≠
      getU32D bytes 9 := by
    rw [hdrop, ← h3]
    exact crc32_flip_ne (bytes.drop 13) (i - 13) k (by rw [List.length_drop]; omega) hk
  unfold decompress
  rw [if_neg (by rw [hlen]; exact h1), if_neg (by rw [hu0]; simp [h2]),
    if_pos (by rw [hu9]; exact hcrcne)]

/-- C4 witness: flipping the lowest bit of the payload byte of a concrete
valid raw container. -/
theorem C4_integrity_witness :
    decompress (([72, 83, 54, 68, 0, 0, 0, 1, 4] ++ toBytes4 (crc32 [65]) ++ [65]).set 13
      (([72, 83, 54, 68, 0, 0, 0, 1, 4] ++ toBytes4 (crc32 [65]) ++ [65]).getD 13 0 ^^^
        2 ^ 0)) =
      ⟨[1/20, 1/5], .error "Checksum no coincide - archivo corrupto"⟩ :=
  C4_integrity ([72, 83, 54, 68, 0, 0, 0, 1, 4] ++ toBytes4 (crc32 [65]) ++ [65]) 13 0
    ([65], false) (by norm_num) (by decide) (by norm_num) (by decide)

/-! ## C8 — size mismatch handling -/

/-- Any container that passes the header and checksum validation and whose
payload stages succeed decompresses to the reconstruction, clamped: the
outcome is the clamp stage applied to the replicate stage's result. -/
theorem decompress_outcome (bytes : List Nat) (r0 : List Nat)
    (h1 : ¬bytes.length < 13)
    (h2 : getU32D bytes 0 = magicN)
    (h3 : crc32 (bytes.drop 13) = getU32D bytes 9)
    (h4 : reconstructStage (bytes.getD 8 0) (bytes.drop 13) = some r0) :
    (decompress bytes).outcome =
      .ok (clampStage (getU32D bytes 4)
        (replicateStage (bytes.getD 8 0) (getU32D bytes 4) r0)) := by
  unfold decompress
  rw [if_neg h1, if_neg (by simp [h2]), if_neg (by simp [h3])]
  unfold reconstructStage at h4
  by_cases hraw : bytes.getD 8 0 &&& 4 ≠ 0
  · rw [if_pos hraw] at h4 ⊢
    rw [Option.some_inj] at h4
    rw [h4]
  · rw [if_neg hraw] at h4 ⊢
    cases h5 : huffDecode (bytes.drop 13) with
    | none =>
      rw [h5] at h4
      simp at h4
    | some hd =>
      rw [h5] at h4
      simp only [Option.some_bind] at h4
      dsimp only
      by_cases h6 : bytes.getD 8 0 &&& 1 ≠ 0
      · rw [if_pos h6] at h4 ⊢
        cases h7 : bwtInverse hd with
        | none =>
          rw [h7] at h4
          simp at h4
        | some r =>
          rw [h7] at h4
          rw [Option.some_inj] at h4
          rw [h4]
      · rw [if_neg h6] at h4 ⊢
        rw [Option.some_inj] at h4
        rw [h4]

/-- C8: for a container whose checksum verifies and whose payload stages
succeed, decompression never fails; writing `r` for the reconstructed block
(after the degenerate replication) and `size` for the stored original size,
the result is truncated to `size` with a warning when `r` is longer, returned
unchanged (never padded) with a warning when `r` is shorter, and returned
without warning when the lengths agree. -/
theorem C8_size_mismatch : ∀ (bytes : List Nat) (r0 : List Nat),
    ¬bytes.length < 13 →
    getU32D bytes 0 = magicN →
    crc32 (bytes.drop 13) = getU32D bytes 9 →
    reconstructStage (bytes.getD 8 0) (bytes.drop 13) = some r0 →
    (getU32D bytes 4 < (replicateStage (bytes.getD 8 0) (getU32D bytes 4) r0).length →
      (decompress bytes).outcome =
        .ok ((replicateStage (bytes.getD 8 0) (getU32D bytes 4) r0).take (getU32D bytes 4),
          true)) ∧
    ((replicateStage (bytes.getD 8 0) (getU32D bytes 4) r0).length < getU32D bytes 4 →
      (decompress bytes).outcome =
        .ok (replicateStage (bytes.getD 8 0) (getU32D bytes 4) r0, true)) ∧
    ((replicateStage (bytes.getD 8 0) (getU32D bytes 4) r0).length = getU32D bytes 4 →
      (decompress bytes).outcome =
        .ok (replicateStage (bytes.getD 8 0) (getU32D bytes 4) r0, false)) := by
  intro bytes r0 h1 h2 h3 h4
  have hout := decompress_outcome bytes r0 h1 h2 h3 h4
  refine ⟨fun hlong => ?_, fun hshort => ?_, fun heq => ?_⟩
  · rw [hout]
    unfold clampStage
    rw [if_pos hlong, decide_eq_true (by omega)]
  · rw [hout]
    unfold clampStage
    rw [if_neg (by omega), decide_eq_true (by omega)]
  · rw [hout]
    unfold clampStage
    rw [if_neg (by omega), decide_eq_false (by omega)]

/-- C8 witness: a raw container storing size 2 with a 3-byte payload is
truncated to 2 bytes with a warning, and one storing size 5 with the same
3-byte payload is returned unchanged with a warning. -/
theorem C8_size_mismatch_witness :
    (decompress ([72, 83, 54, 68, 0, 0, 0, 2, 4] ++ toBytes4 (crc32 [7, 8, 9]) ++
      [7, 8, 9])).outcome = .ok ([7, 8], true) ∧
    (decompress ([72, 83, 54, 68, 0, 0, 0, 5, 4] ++ toBytes4 (crc32 [7, 8, 9]) ++
      [7, 8, 9])).outcome = .ok ([7, 8, 9], true) := by
  constructor
  · have h := (C8_size_mismatch
      ([72, 83, 54, 68, 0, 0, 0, 2, 4] ++ toBytes4 (crc32 [7, 8, 9]) ++ [7, 8, 9]) [7, 8, 9]
      (by decide) (by decide) (by decide) (by decide)).1 (by decide)
    rw [h]
    decide
  · have h := (C8_size_mismatch
      ([72, 83, 54, 68, 0, 0, 0, 5, 4] ++ toBytes4 (crc32 [7, 8, 9]) ++ [7, 8, 9]) [7, 8, 9]
      (by decide) (by decide) (by decide) (by decide)).2.1 (by decide)
    rw [h]
    decide

/-! ## C1 — round trip -/

theorem bwtProcess_bytes_lt (x : List Nat) (hb : ∀ b ∈ x, b < 256) :
    ∀ b ∈ bwtProcess x, b < 256 := by
  intro b hmem
  unfold bwtProcess at hmem
  by_cases hsmall : x.length ≤ 1
  · rw [if_pos hsmall] at hmem
    exact hb b hmem
  · rw [if_neg hsmall] at hmem
    rcases List.mem_append.mp hmem with h | h
    · exact toBytes4_lt _ b h
    · exact hb b ((bwtL_perm x).mem_iff.mp h)

theorem bwtProcess_length_le (x : List Nat) :
    (bwtProcess x).length ≤ 4 + x.length := by
  unfold bwtProcess
  by_cases hsmall : x.length ≤ 1
  · rw [if_pos hsmall]
    omega
  · rw [if_neg hsmall]
    rw [List.length_append, toBytes4_length]
    have : (bwtL x).length = x.length := by
      unfold bwtL
      rw [List.length_map, sortedRots_length]
    omega

theorem replicateStage_self (flags : Nat) (r : List Nat) :
    replicateStage flags r.length r = r := by
  unfold replicateStage
  rw [if_neg]
  rintro ⟨-, h1, h2⟩
  omega

theorem clampStage_self (r : List Nat) : clampStage r.length r = (r, false) := by
  unfold clampStage
  rw [if_neg (Nat.lt_irrefl _)]
  simp

theorem reconstruct_compress (B : List Nat) (hb : ∀ b ∈ B, b < 256)
    (hlen : B.length + 4 < 2 ^ 32) :
    reconstructStage ((compress B).container.getD 8 0)
      ((compress B).container.drop 13) = some B := by
  rw [compress_container_getD_8, compress_container_drop_13]
  unfold reconstructStage
  by_cases hraw : rawFallback B
  · rw [if_pos (by rw [flagsOf_and_four, hraw]; decide)]
    unfold payloadOf
    rw [if_pos hraw]
  · rw [if_neg (by rw [flagsOf_and_four, Bool.eq_false_iff.mpr hraw]; decide)]
    have hpay : payloadOf B = encodedData B := by
      unfold payloadOf
      rw [if_neg hraw]
    rw [hpay]
    unfold encodedData
    by_cases hbwt : shouldUseBWT B
    · rw [if_pos hbwt]
      rw [huff_roundtrip (bwtProcess B) (bwtProcess_bytes_lt B hb)
        (by have := bwtProcess_length_le B; omega)]
      rw [Option.some_bind]
      rw [if_pos (by rw [flagsOf_and_one, hbwt]; decide)]
      exact bwt_roundtrip B (by omega)
    · rw [if_neg hbwt]
      rw [huff_roundtrip B hb (by omega)]
      rw [Option.some_bind]
      rw [if_neg (by rw [flagsOf_and_one, Bool.eq_false_iff.mpr hbwt]; decide)]

/-- C1: decompressing the container produced by compressing any block yields
exactly that block (and the size check raises no warning); the hypotheses are
the byte-array invariants of the program (each element is a byte, and the
block length fits the 4-byte size field together with the transform header). -/
theorem C1_round_trip (B : List Nat) (hb : ∀ b ∈ B, b < 256)
    (hlen : B.length + 4 < 2 ^ 32) :
    (decompress (compress B).container).outcome = .ok (B, false) := by
  have hsz : B.length % 2 ^ 32 = B.length := Nat.mod_eq_of_lt (by omega)
  rw [decompress_outcome (compress B).container B
    (by rw [compress_container_length]; omega)
    (compress_container_magic B)
    (by rw [compress_container_drop_13, compress_container_checksum])
    (reconstruct_compress B hb hlen)]
  rw [compress_container_size, hsz, compress_container_getD_8]
  rw [show replicateStage (flagsOf B) B.length B = B from replicateStage_self _ B]
  rw [clampStage_self B]

/-- C1 witness: a concrete 3-byte block round-trips exactly. -/
theorem C1_round_trip_witness :
    (decompress (compress [65, 66, 65]).container).outcome = .ok ([65, 66, 65], false) :=
  C1_round_trip [65, 66, 65] (by decide) (by decide)

end HS6D
